import Mathlib

/-! GeneticFitnessTrait (RangeShifter RScore): a shallow embedding

The definitions below follow `src/GeneticFitnessTrait.cpp` function by function.

Modelling conventions
* Locus positions, the non-negative `int` keys of the genetic state, are natural numbers.
  Recombination breakpoints, the elements of a `set<unsigned int>`, are natural numbers too.
  The walk stores each breakpoint in an `int` (`int nextBreakpoint = *it`); this conversion
  is `toInt`, under which a breakpoint from `2^31` on becomes negative, and the walk
  compares the locus with the converted value as integers.
* `float` coefficients are read as exact rationals.
* A `shared_ptr<Allele>` is `Option Allele`: `none` is the null pointer, and the `id` field
  of an allele stands for the identity of the pointed-to object.
* `std::map<int, vector<shared_ptr<Allele>>>` is an association list whose keys are strictly
  ascending; `std::set<unsigned int>` is a strictly ascending list.
* Undefined behaviour of the C++ program (dereferencing `end()`, indexing a vector out of
  range) is reported explicitly, never given a value.
* The random service is the list of the outcomes it delivers; a call that finds its list
  used up is reported as `pending`, the run having no result on that supply of outcomes.
-/

namespace GeneticFitnessTrait

/-! ## Data model -/

/-- Modelled from the spec: the `Allele` value object (its class is declared in a header
outside `src/`): an immutable pair of coefficients read through `getAlleleValue()` and
`getDominanceCoef()`. The field `id` is the identity of the object a pointer refers to. -/
structure Allele where
  id : Nat
  alleleValue : ℚ
  dominanceCoef : ℚ
  deriving DecidableEq, Repr

/-- Modelled from the spec: the shared wild-type sentinel (declared outside `src/`), the
no-effect allele with coefficients `(0, 0)`. -/
def wildType : Allele := { id := 0, alleleValue := 0, dominanceCoef := 0 }

/-- A `shared_ptr<Allele>`; `none` is the null pointer. -/
abbrev AllelePtr := Option Allele

/-- One locus: `vector<shared_ptr<Allele>>`. -/
abbrev Slots := List AllelePtr

/-- The genetic state `map<int, vector<shared_ptr<Allele>>> genes`. -/
abbrev Genes := List (Nat × Slots)

/-- Modelled from the spec: `sex_t::FEM` (enum declared outside `src/`), the maternal slot. -/
def FEM : Nat := 0

/-- Modelled from the spec: `sex_t::MAL` (enum declared outside `src/`), the paternal slot. -/
def MAL : Nat := 1

/-- The `runtime_error`s thrown by the trait. -/
inductive IntegrityError where
  | fatherLocusMissing          -- Father-inherited locus does not exist.
  | motherLocusExists           -- Mother-inherited locus already exists.
  | mutationLocusMissing        -- Locus sampled for mutation does not exist.
  | heterozygosityLocusMissing  -- Genetic load gene queried for heterozygosity does not exist.
  | alleleValueLocusMissing     -- The genetic load locus queried for its allele value does not exist.
  deriving DecidableEq, Repr

/-- Result of a member function that updates `genes`: normal return with the new state, an
exception together with the state at the throw, or undefined behaviour. -/
inductive Outcome where
  | ok (genes : Genes)
  | thrown (e : IntegrityError) (genes : Genes)
  | undefinedBehaviour
  deriving DecidableEq, Repr

/-- The keys of a map, in iteration order. -/
def keys (g : Genes) : List Nat := g.map Prod.fst

/-- Class invariant of `std::map` / `std::set`: strictly ascending keys. -/
def Ascending (l : List Nat) : Prop := l.Pairwise (fun a b => a < b)

instance (l : List Nat) : Decidable (Ascending l) :=
  inferInstanceAs (Decidable (l.Pairwise (fun a b => a < b)))

/-- The lookup `genes.find(locus)`: the mapped vector, `none` for `genes.end()`. -/
def find (genes : Genes) (locus : Nat) : Option Slots :=
  match genes with
  | [] => none
  | (k, v) :: rest => if k = locus then some v else find rest locus

/-- The call `genes.insert(make_pair(locus, slots))`: ordered insertion, without effect when the key
is already present. -/
def insert (genes : Genes) (locus : Nat) (slots : Slots) : Genes :=
  match genes with
  | [] => [(locus, slots)]
  | (k, v) :: rest =>
    if locus < k then (locus, slots) :: (k, v) :: rest
    else if locus = k then (k, v) :: rest
    else (k, v) :: insert rest locus slots

/-- Assignment through an iterator obtained from `find`: `it->second = slots`. -/
def assign (genes : Genes) (locus : Nat) (slots : Slots) : Genes :=
  match genes with
  | [] => []
  | (k, v) :: rest =>
    if k = locus then (k, slots) :: rest else (k, v) :: assign rest locus slots

/-- The read `allelePair[i]` for an `int` index: `none` when the index is out of range. -/
def index (allelePair : Slots) (i : Int) : Option AllelePtr :=
  if 0 ≤ i then allelePair[i.toNat]? else none

/-! ## Diploid inheritance (`inheritDiploid`) -/

/-- The conversion of an `unsigned int` to `int`, as in `int nextBreakpoint = *it`: a value
below `2^31` is kept, a value from `2^31` on wraps around to the negative `u - 2^32`. -/
def toInt (u : Nat) : Int :=
  if u % 4294967296 < 2147483648 then ((u % 4294967296 : Nat) : Int)
  else ((u % 4294967296 : Nat) : Int) - 4294967296

/-- The inner loop `while (locus > nextBreakpoint) { advance(it, 1); nextBreakpoint = *it;
parentChromosome = 1 - parentChromosome; }`. The iterator `it` is held as the elements after
the one it points to (`after`), and `nextBreakpoint` is the `int` variable of the source;
`none` is the dereference of `recomPositions.end()`. -/
def advancePast (locus : Nat) (nextBreakpoint : Int) (after : List Nat)
    (parentChromosome : Int) : Option (Int × List Nat × Int) :=
  if (locus : Int) > nextBreakpoint then
    match after with
    | [] => none
    | b :: after' => advancePast locus (toInt b) after' (1 - parentChromosome)
  else some (nextBreakpoint, after, parentChromosome)

/-- The body of `if (locus <= nextBreakpoint) { ... }` for one parent locus. -/
def inheritLocus (fromMother : Bool) (genes : Genes) (locus : Nat) (allelePair : Slots)
    (parentChromosome : Int) : Outcome :=
  match index allelePair parentChromosome with
  | none => .undefinedBehaviour
  | some parentAllele =>
    match find genes locus with
    | none =>
      -- locus does not exist yet, create and initialise it
      if !fromMother then .thrown .fatherLocusMissing genes
      else .ok (insert genes locus ((List.replicate 2 none).set FEM parentAllele))
    | some slots =>
      -- father, locus already exists
      if fromMother then .thrown .motherLocusExists genes
      else if MAL < slots.length then .ok (assign genes locus (slots.set MAL parentAllele))
      else .undefinedBehaviour

/-- The loop `for (auto const& [locus, allelePair] : parentGenes)`, with the `int` variable
`nextBreakpoint` and the iterator position `after`. -/
def inheritLoop (fromMother : Bool) (parentGenes : Genes) (nextBreakpoint : Int)
    (after : List Nat) (parentChromosome : Int) (genes : Genes) : Outcome :=
  match parentGenes with
  | [] => .ok genes
  | (locus, allelePair) :: rest =>
    -- Switch chromosome if locus is past recombination site
    match advancePast locus nextBreakpoint after parentChromosome with
    | none => .undefinedBehaviour
    | some (nextBreakpoint', after', parentChromosome') =>
      if (locus : Int) ≤ nextBreakpoint' then
        match inheritLocus fromMother genes locus allelePair parentChromosome' with
        | .ok genes' => inheritLoop fromMother rest nextBreakpoint' after' parentChromosome' genes'
        | other => other
      else inheritLoop fromMother rest nextBreakpoint' after' parentChromosome' genes

/-- The member function `GeneticFitnessTrait::inheritDiploid`; the last argument is the
offspring's `genes`. The first key, a non-negative `int`, is passed to `lower_bound`
unchanged; the breakpoint found there is stored in the `int nextBreakpoint`. -/
def inheritDiploid (fromMother : Bool) (parentGenes : Genes) (recomPositions : List Nat)
    (parentChromosome : Int) (genes : Genes) : Outcome :=
  match parentGenes with
  | [] => .undefinedBehaviour  -- parentGenes.begin()->first on an empty map
  | (first, _) :: _ =>
    -- it = recomPositions.lower_bound(first); int nextBreakpoint = *it
    match recomPositions.dropWhile (fun b => b < first) with
    | [] => .undefinedBehaviour  -- *it with it == recomPositions.end()
    | b :: after =>
      let nextBreakpoint := toInt b
      let distance := (recomPositions.takeWhile (fun b => b < first)).length
      let parentChromosome :=
        if distance % 2 ≠ 0 then 1 - parentChromosome else parentChromosome
      inheritLoop fromMother parentGenes nextBreakpoint after parentChromosome genes

/-- The member function `GeneticFitnessTrait::inheritHaploid`: `genes = parentGenes`. -/
def inheritHaploid (_fromMother : Bool) (parentGenes : Genes) (_recomPositions : List Nat)
    (_parentChromosome : Int) (_genes : Genes) : Outcome :=
  .ok parentGenes

/-- The member-function pointer `_inherit_func_ptr`. -/
inductive InheritFunc where
  | inheritHaploid
  | inheritDiploid
  deriving DecidableEq, Repr

/-- The wrapper `GeneticFitnessTrait::inheritGenes`: the parent trait is given by its `getGenes()`, and
the call goes through the function pointer chosen at construction. -/
def inheritGenes (inheritFuncPtr : InheritFunc) (fromMother : Bool) (parentSeq : Genes)
    (recomPositions : List Nat) (startingChromosome : Int) (genes : Genes) : Outcome :=
  match inheritFuncPtr with
  | .inheritHaploid => inheritHaploid fromMother parentSeq recomPositions startingChromosome genes
  | .inheritDiploid => inheritDiploid fromMother parentSeq recomPositions startingChromosome genes

/-! ## Construction (`GeneticFitnessTrait(SpeciesTrait* P)`, `initialise`) -/

/-- Modelled from the spec: the enum `DistributionType` (declared outside `src/`): the five
families named by the constructor, and `OTHER` for every further enumerator. -/
inductive DistributionType where
  | UNIFORM | NORMAL | GAMMA | NEGEXP | SCALED | OTHER
  deriving DecidableEq, Repr

/-- Modelled from the spec: the enum `GenParamType` (declared outside `src/`), the names of
the distribution parameters. -/
inductive GenParamType where
  | MIN | MAX | MEAN | SD | SHAPE | SCALE
  deriving DecidableEq, Repr

/-- A `map<GenParamType, float>`. -/
abbrev GenParams := GenParamType → Option ℚ

/-- The call `params.count(p)` on a `std::map`: 1 when the key is present, 0 otherwise. -/
def count (params : GenParams) (p : GenParamType) : Nat :=
  if (params p).isSome then 1 else 0

/-- Modelled from the spec: the species-level configuration object `SpeciesTrait` (declared
outside `src/`), as the record of the values the trait reads through its getters. -/
structure SpeciesTrait where
  ploidy : Nat
  genePositions : List Nat
  mutationDistribution : DistributionType
  mutationParameters : GenParams
  dominanceDistribution : DistributionType
  dominanceParameters : GenParams
  isValidTraitVal : ℚ → Bool

/-- The `logic_error`s thrown by the constructor: which distribution, and what is wrong. -/
inductive ConfigError where
  | mutationMissing (p : GenParamType)
  | mutationWrongFamily
  | dominanceMissing (p : GenParamType)
  | dominanceWrongFamily
  deriving DecidableEq, Repr

/-- The data members of a `GeneticFitnessTrait` object. -/
structure Trait where
  pSpeciesTrait : SpeciesTrait
  genes : Genes
  inheritFuncPtr : InheritFunc

/-- The member function `GeneticFitnessTrait::initialise`, applied to the current `genes`. -/
def initialise (P : SpeciesTrait) (genes : Genes) : Genes :=
  let wildTypeGene : Slots := List.replicate P.ploidy (some wildType)
  P.genePositions.foldl (fun g position => insert g position wildTypeGene) genes

/-- The `switch (mutationDistribution)` of the constructor. -/
def checkMutation (P : SpeciesTrait) : Except ConfigError Unit :=
  let mutationParameters := P.mutationParameters
  match P.mutationDistribution with
  | .UNIFORM =>
    if count mutationParameters .MAX ≠ 1 then .error (.mutationMissing .MAX)
    else if count mutationParameters .MIN ≠ 1 then .error (.mutationMissing .MIN)
    else .ok ()
  | .NORMAL =>
    if count mutationParameters .MEAN ≠ 1 then .error (.mutationMissing .MEAN)
    else if count mutationParameters .SD ≠ 1 then .error (.mutationMissing .SD)
    else .ok ()
  | .GAMMA =>
    if count mutationParameters .SHAPE ≠ 1 then .error (.mutationMissing .SHAPE)
    else if count mutationParameters .SCALE ≠ 1 then .error (.mutationMissing .SCALE)
    else .ok ()
  | .NEGEXP =>
    if count mutationParameters .MEAN ≠ 1 then .error (.mutationMissing .MEAN)
    else .ok ()
  | _ => .error .mutationWrongFamily

/-- The `switch (dominanceDistribution)` of the constructor. -/
def checkDominance (P : SpeciesTrait) : Except ConfigError Unit :=
  let dominanceParameters := P.dominanceParameters
  match P.dominanceDistribution with
  | .UNIFORM =>
    if count dominanceParameters .MAX ≠ 1 then .error (.dominanceMissing .MAX)
    else if count dominanceParameters .MIN ≠ 1 then .error (.dominanceMissing .MIN)
    else .ok ()
  | .NORMAL =>
    if count dominanceParameters .MEAN ≠ 1 then .error (.dominanceMissing .MEAN)
    else if count dominanceParameters .SD ≠ 1 then .error (.dominanceMissing .SD)
    else .ok ()
  | .GAMMA =>
    if count dominanceParameters .SHAPE ≠ 1 then .error (.dominanceMissing .SHAPE)
    else if count dominanceParameters .SCALE ≠ 1 then .error (.dominanceMissing .SCALE)
    else .ok ()
  | .NEGEXP =>
    if count dominanceParameters .MEAN ≠ 1 then .error (.dominanceMissing .MEAN)
    else .ok ()
  | .SCALED => .ok ()  -- no parameter
  | _ => .error .dominanceWrongFamily

set_option linter.dupNamespace false in
/-- The initialisation constructor `GeneticFitnessTrait::GeneticFitnessTrait(SpeciesTrait* P)`:
`initialise()`, the choice of the inheritance function, then the two parameter checks. -/
def GeneticFitnessTrait (P : SpeciesTrait) : Except ConfigError Trait :=
  let genes := initialise P []
  let inheritFuncPtr :=
    if P.ploidy = 1 then InheritFunc.inheritHaploid else InheritFunc.inheritDiploid
  match checkMutation P with
  | .error e => .error e
  | .ok () =>
    match checkDominance P with
    | .error e => .error e
    | .ok () => .ok { pSpeciesTrait := P, genes := genes, inheritFuncPtr := inheritFuncPtr }

/-! ## Expression (`express`) -/

/-- The idiom `p == 0 ? wildType : p`. -/
def resolve (p : AllelePtr) : Allele :=
  match p with
  | none => wildType
  | some a => a

/-- The dominance weight `hLocus = sumDomCoeffs == 0.0 ? 0.0 : hA / sumDomCoeffs`. -/
def hLocus (hA hB : ℚ) : ℚ :=
  let sumDomCoeffs := hA + hB
  if sumDomCoeffs = 0 then 0 else hA / sumDomCoeffs

/-- The body of the loop of `express` for one locus: the factor that multiplies `phenotype`.
Both `pAllelePair[0]` and `pAllelePair[1]` are read before the ploidy is tested; `none` is
a read out of range. -/
def locusFactor (ploidy : Nat) (pAllelePair : Slots) : Option ℚ :=
  match pAllelePair[0]? with
  | none => none
  | some p0 =>
    match pAllelePair[1]? with
    | none => none
    | some p1 =>
      let pAlleleA := resolve p0
      let pAlleleB := resolve p1
      let sA := pAlleleA.alleleValue
      let hA := pAlleleA.dominanceCoef
      let sB := if ploidy = 2 then pAlleleB.alleleValue else 0
      let hB := if ploidy = 2 then pAlleleB.dominanceCoef else 0
      some (1 - hLocus hA hB * sA - (1 - hLocus hA hB) * sB)

/-- The loop `for (auto const& [locus, pAllelePair] : genes)` of `express`. -/
def expressLoop (ploidy : Nat) (genes : Genes) (phenotype : ℚ) : Option ℚ :=
  match genes with
  | [] => some phenotype
  | (_, pAllelePair) :: rest =>
    match locusFactor ploidy pAllelePair with
    | none => none
    | some factor => expressLoop ploidy rest (phenotype * factor)

/-- The member function `GeneticFitnessTrait::express`; `none` is undefined behaviour (a vector read out of
range). -/
def express (ploidy : Nat) (genes : Genes) : Option ℚ :=
  expressLoop ploidy genes 1

/-! ## Queries (`isHeterozygoteAtLocus`, `countHeterozygoteLoci`, `getAlleleValueAtLocus`) -/

/-- Result of a `const` member function: a value, an exception, or undefined behaviour. -/
inductive QueryResult (α : Type) where
  | ok (value : α)
  | thrown (e : IntegrityError)
  | undefinedBehaviour
  deriving DecidableEq, Repr

/-- The comparison `a != b` of two non-null `shared_ptr<Allele>`: true when they point to
different objects. -/
def ptrNe (a b : Allele) : Bool := a.id != b.id

/-- The member function `GeneticFitnessTrait::isHeterozygoteAtLocus`. -/
def isHeterozygoteAtLocus (genes : Genes) (locus : Nat) : QueryResult Bool :=
  match find genes locus with
  | none => .thrown .heterozygosityLocusMissing
  | some slots =>
    match slots[0]? with
    | none => .undefinedBehaviour
    | some p0 =>
      match slots[1]? with
      | none => .undefinedBehaviour
      | some p1 =>
        let alleleRight := resolve p0
        let alleleLeft := resolve p1
        .ok (ptrNe alleleRight alleleLeft)

/-- The loop of `countHeterozygoteLoci`, started with the current `count`. -/
def countHeterozygoteLoop (genes : Genes) (count : Int) : QueryResult Int :=
  match genes with
  | [] => .ok count
  | (_, allelePair) :: rest =>
    match allelePair[0]? with
    | none => .undefinedBehaviour
    | some p0 =>
      match allelePair[1]? with
      | none => .undefinedBehaviour
      | some p1 =>
        let alleleLeft := resolve p0
        let alleleRight := resolve p1
        countHeterozygoteLoop rest (count + (if ptrNe alleleLeft alleleRight then 1 else 0))

/-- The member function `GeneticFitnessTrait::countHeterozygoteLoci`. -/
def countHeterozygoteLoci (genes : Genes) : QueryResult Int :=
  countHeterozygoteLoop genes 0

/-- The member function `GeneticFitnessTrait::getAlleleValueAtLocus`. -/
def getAlleleValueAtLocus (genes : Genes) (whichChromosome : Int) (position : Nat) :
    QueryResult ℚ :=
  match find genes position with
  | none => .thrown .alleleValueLocusMissing
  | some slots =>
    match index slots whichChromosome with
    | none => .undefinedBehaviour
    | some p => .ok (resolve p).alleleValue

/-! ## Mutation (`mutate`, `drawSelectionCoef`, `drawDominance`) -/

/-- Modelled from the spec: the random service `pRandom` (declared outside `src/`), as the
outcomes it is going to deliver: the successive results of `Binomial`, of `std::sample` over
the configured positions, and of the real-valued samplers `FRandom`, `Normal`, `Gamma` and
`NegExp` in the order of their calls. A call takes the next outcome of its list; the
arguments of the call (bounds, mean, rate) are not represented, every outcome is allowed. -/
structure Draws where
  binomialOutcomes : List Nat
  sampleOutcomes : List (List Nat)
  realOutcomes : List ℚ
  deriving DecidableEq, Repr

/-- The call `pRandom->Binomial(positionsSize, mutationRate)`; `none` when the outcomes are
used up. -/
def Binomial (rnd : Draws) : Option (Nat × Draws) :=
  match rnd.binomialOutcomes with
  | [] => none
  | n :: rest => some (n, { rnd with binomialOutcomes := rest })

/-- The call `sample(genePositions.begin(), genePositions.end(), ..., NbMut, rng)`; `none`
when the outcomes are used up. -/
def sample (rnd : Draws) : Option (List Nat × Draws) :=
  match rnd.sampleOutcomes with
  | [] => none
  | positions :: rest => some (positions, { rnd with sampleOutcomes := rest })

/-- Result of drawing one coefficient: the value and the remaining outcomes, a
`logic_error`, undefined behaviour, or `pending` when the outcomes are used up before a value
is returned. -/
inductive DrawResult where
  | ok (value : ℚ) (rnd : Draws)
  | logicError
  | undefinedBehaviour
  | pending
  deriving DecidableEq, Repr

/-- The call `pRandom->FRandom(min, max)`. -/
def FRandom (rnd : Draws) : DrawResult :=
  match rnd.realOutcomes with
  | [] => .pending
  | x :: rest => .ok x { rnd with realOutcomes := rest }

/-- A loop `do { x = sampler(...); } while (again(x));` around one sampler call. -/
def redraw (again : ℚ → Bool) (rnd : Draws) : List ℚ → DrawResult
  | [] => .pending
  | x :: rest => if again x then redraw again rnd rest else .ok x { rnd with realOutcomes := rest }

/-- A loop `do { x = body(); } while (again(x));` around a call that draws. Every call that
returns uses up at least one outcome, so the loop is entered with one unit of `fuel` more
than there are outcomes left. -/
def doWhile (body : Draws → DrawResult) (again : ℚ → Bool) : Nat → Draws → DrawResult
  | 0, _ => .pending
  | fuel + 1, rnd =>
    match body rnd with
    | .ok x rnd' => if again x then doWhile body again fuel rnd' else .ok x rnd'
    | other => other

/-- The member function `GeneticFitnessTrait::drawSelectionCoef`. A parameter read
`mutationParameters.find(p)->second` is undefined when `p` is missing. -/
def drawSelectionCoef (P : SpeciesTrait) (rnd : Draws) : DrawResult :=
  let mutationParameters := P.mutationParameters
  match P.mutationDistribution with
  | .UNIFORM =>
    match mutationParameters .MAX, mutationParameters .MIN with
    | some _, some _ => FRandom rnd  -- no check here
    | _, _ => .undefinedBehaviour
  | .NORMAL =>
    match mutationParameters .MEAN, mutationParameters .SD with
    | some _, some _ => redraw (fun s => !P.isValidTraitVal s) rnd rnd.realOutcomes
    | _, _ => .undefinedBehaviour
  | .GAMMA =>
    match mutationParameters .SHAPE, mutationParameters .SCALE with
    | some _, some _ => redraw (fun s => !P.isValidTraitVal s) rnd rnd.realOutcomes
    | _, _ => .undefinedBehaviour
  | .NEGEXP =>
    match mutationParameters .MEAN with
    | some _ => redraw (fun s => !P.isValidTraitVal s) rnd rnd.realOutcomes
    | none => .undefinedBehaviour
  | _ => .logicError

/-- The member function `GeneticFitnessTrait::drawDominance`. The bound
`exp((-log(2 * 0.36) / 0.05) * selCoef)` of the SCALED family is an argument of `FRandom`
and, like every sampler argument, not represented. -/
def drawDominance (P : SpeciesTrait) (_selCoef : ℚ) (rnd : Draws) : DrawResult :=
  let dominanceParameters := P.dominanceParameters
  match P.dominanceDistribution with
  | .UNIFORM =>
    match dominanceParameters .MAX, dominanceParameters .MIN with
    | some _, some _ => FRandom rnd
    | _, _ => .undefinedBehaviour
  | .NORMAL =>
    match dominanceParameters .MEAN, dominanceParameters .SD with
    | some _, some _ => redraw (fun h => decide (h ≤ 0)) rnd rnd.realOutcomes
    | _, _ => .undefinedBehaviour
  | .GAMMA =>
    match dominanceParameters .SHAPE, dominanceParameters .SCALE with
    | some _, some _ => FRandom rnd
    | _, _ => .undefinedBehaviour
  | .NEGEXP =>
    match dominanceParameters .MEAN with
    | some _ => FRandom rnd
    | none => .undefinedBehaviour
  | .SCALED => FRandom rnd
  | _ => .logicError

/-- Result of `mutate` and of its loops: normal return with the new state, the remaining
outcomes and the identity of the next allele object to be created; an exception; undefined
behaviour; or `pending` when the outcomes are used up before the call returns. -/
inductive MutateResult where
  | ok (genes : Genes) (rnd : Draws) (nextId : Nat)
  | thrown (e : IntegrityError) (genes : Genes)
  | logicError
  | undefinedBehaviour
  | pending
  deriving DecidableEq, Repr

/-- The body of `for (int m : mutationPositions)` in pass `p`; `make_shared<Allele>` creates
the object with identity `nextId`. -/
def mutateLocus (P : SpeciesTrait) (p : Nat) (m : Nat) (genes : Genes) (rnd : Draws)
    (nextId : Nat) : MutateResult :=
  match find genes m with
  | none => .thrown .mutationLocusMissing genes
  | some slots =>
    match doWhile (drawSelectionCoef P) (fun s => !P.isValidTraitVal s)
        (rnd.realOutcomes.length + 1) rnd with
    | .ok newSelectionCoef rnd1 =>
      match doWhile (drawDominance P newSelectionCoef) (fun h => decide (h < 0))
          (rnd1.realOutcomes.length + 1) rnd1 with
      | .ok newDominanceCoef rnd2 =>
        if p < slots.length then
          .ok (assign genes m
            (slots.set p (some ⟨nextId, newSelectionCoef, newDominanceCoef⟩))) rnd2 (nextId + 1)
        else .undefinedBehaviour
      | .logicError => .logicError
      | .undefinedBehaviour => .undefinedBehaviour
      | .pending => .pending
    | .logicError => .logicError
    | .undefinedBehaviour => .undefinedBehaviour
    | .pending => .pending

/-- The loop `for (int m : mutationPositions)` of pass `p`. -/
def mutatePositions (P : SpeciesTrait) (p : Nat) (mutationPositions : List Nat)
    (genes : Genes) (rnd : Draws) (nextId : Nat) : MutateResult :=
  match mutationPositions with
  | [] => .ok genes rnd nextId
  | m :: rest =>
    match mutateLocus P p m genes rnd nextId with
    | .ok genes' rnd' nextId' => mutatePositions P p rest genes' rnd' nextId'
    | other => other

/-- The body of `for (int p = 0; p < ploidy; p++)`: one chromosome copy. -/
def mutatePass (P : SpeciesTrait) (p : Nat) (genes : Genes) (rnd : Draws) (nextId : Nat) :
    MutateResult :=
  -- Determine nb of mutations
  match Binomial rnd with
  | none => .pending
  | some (NbMut, rnd1) =>
    if NbMut > 0 then
      -- Draw which positions mutate
      match sample rnd1 with
      | none => .pending
      | some (mutationPositions, rnd2) => mutatePositions P p mutationPositions genes rnd2 nextId
    else .ok genes rnd1 nextId

/-- The loop `for (int p = 0; p < ploidy; p++)`, with `remaining = ploidy - p` passes to go. -/
def mutatePasses (P : SpeciesTrait) (remaining : Nat) (p : Nat) (genes : Genes) (rnd : Draws)
    (nextId : Nat) : MutateResult :=
  match remaining with
  | 0 => .ok genes rnd nextId
  | remaining' + 1 =>
    match mutatePass P p genes rnd nextId with
    | .ok genes' rnd' nextId' => mutatePasses P remaining' (p + 1) genes' rnd' nextId'
    | other => other

/-- The member function `GeneticFitnessTrait::mutate`. -/
def mutate (P : SpeciesTrait) (genes : Genes) (rnd : Draws) (nextId : Nat) : MutateResult :=
  mutatePasses P P.ploidy 0 genes rnd nextId

/-! ## Specification vocabulary -/

/-- The number of breakpoints strictly below a locus: `|{b in B : b < L}|`. -/
def countBelow (recomPositions : List Nat) (locus : Nat) : Nat :=
  (recomPositions.filter (fun b => b < locus)).length

/-- The breakpoint-parity rule: the parental copy read at a locus. -/
def copyAt (startingChromosome : Int) (recomPositions : List Nat) (locus : Nat) : Int :=
  (startingChromosome + countBelow recomPositions locus) % 2

/-- A diploid state: every locus holds exactly two slots. -/
def Diploid (g : Genes) : Prop := ∀ p ∈ g, p.2.length = 2

instance (g : Genes) : Decidable (Diploid g) :=
  inferInstanceAs (Decidable (∀ p ∈ g, p.2.length = 2))

/-- The breakpoint set covers the loci: some breakpoint is at or beyond every locus. -/
def Covers (recomPositions : List Nat) (loci : List Nat) : Prop :=
  ∃ b ∈ recomPositions, ∀ L ∈ loci, L ≤ b

instance (recomPositions loci : List Nat) : Decidable (Covers recomPositions loci) :=
  inferInstanceAs (Decidable (∃ b ∈ recomPositions, ∀ L ∈ loci, L ≤ b))

/-- Every breakpoint is a position that an `int` holds: it lies below `2^31`. -/
def InRange (recomPositions : List Nat) : Prop := ∀ b ∈ recomPositions, b < 2147483648

instance (recomPositions : List Nat) : Decidable (InRange recomPositions) :=
  inferInstanceAs (Decidable (∀ b ∈ recomPositions, b < 2147483648))

/-- Exchange of the maternal and the paternal allele of one diploid locus. -/
def exchangeSlots : Slots → Slots
  | [a, b] => [b, a]
  | slots => slots

/-- Exchange of the maternal and the paternal allele at every locus. -/
def exchangeParents (genes : Genes) : Genes :=
  genes.map (fun q => (q.1, exchangeSlots q.2))

/-- Only real-valued outcomes were used up between `rnd` and `rnd'`. -/
def SameCounts (rnd rnd' : Draws) : Prop :=
  rnd'.binomialOutcomes = rnd.binomialOutcomes ∧ rnd'.sampleOutcomes = rnd.sampleOutcomes

/-- The alleles that `mutate` may store: a selection coefficient accepted by the validity
predicate and a non-negative dominance coefficient. -/
def Accepted (P : SpeciesTrait) (a : Allele) : Prop :=
  P.isValidTraitVal a.alleleValue = true ∧ 0 ≤ a.dominanceCoef

/-- The state `genes'` comes from `genes` by rewriting slots: same keys, same number of
slots at every locus, and every slot `i` of every locus `L` either holds the reference it
held before or, where `allowed i L`, a reference to an accepted allele. -/
def MutatedFrom (P : SpeciesTrait) (allowed : Nat → Nat → Prop) (genes genes' : Genes) : Prop :=
  keys genes' = keys genes ∧
  ∀ L slots, find genes L = some slots →
    ∃ slots', find genes' L = some slots' ∧ slots'.length = slots.length ∧
      ∀ i, slots'[i]? = slots[i]? ∨
        (allowed i L ∧ ∃ a, slots'[i]? = some (some a) ∧ Accepted P a)

/-- The positions sampled in the pass that starts with the outcomes `rnd`: the next outcome
of `sample` when the next outcome of `Binomial` is positive, none otherwise. -/
def sampledInPass (rnd : Draws) : List Nat :=
  match rnd.binomialOutcomes, rnd.sampleOutcomes with
  | NbMut :: _, mutationPositions :: _ => if NbMut > 0 then mutationPositions else []
  | _, _ => []

/-- The structural invariant of the genetic state: the keys are the configured positions,
every locus holds exactly `ploidy` slots, and no slot is null. -/
def Invariant (P : SpeciesTrait) (genes : Genes) : Prop :=
  keys genes = P.genePositions ∧
  (∀ q ∈ genes, q.2.length = P.ploidy) ∧
  (∀ q ∈ genes, ∀ slot ∈ q.2, slot ≠ none)

/-! ## Specification of the constructor check -/

/-- The parameters the spec requires for each family (UNIFORM: min and max; NORMAL: mean and
sd; GAMMA: shape and scale; NEGEXP: mean; SCALED: none). -/
def specRequired : DistributionType → List GenParamType
  | .UNIFORM => [.MIN, .MAX]
  | .NORMAL => [.MEAN, .SD]
  | .GAMMA => [.SHAPE, .SCALE]
  | .NEGEXP => [.MEAN]
  | .SCALED => []
  | .OTHER => []

/-- The configurations the spec rejects: a mutation family outside UNIFORM, NORMAL, GAMMA,
NEGEXP; a dominance family outside UNIFORM, NORMAL, GAMMA, NEGEXP, SCALED; or a parameter
map that lacks a required parameter of its family. -/
def specRejects (P : SpeciesTrait) : Prop :=
  P.mutationDistribution ∉
      [DistributionType.UNIFORM, DistributionType.NORMAL, DistributionType.GAMMA,
        DistributionType.NEGEXP] ∨
  P.dominanceDistribution ∉
      [DistributionType.UNIFORM, DistributionType.NORMAL, DistributionType.GAMMA,
        DistributionType.NEGEXP, DistributionType.SCALED] ∨
  (∃ p ∈ specRequired P.mutationDistribution, P.mutationParameters p = none) ∨
  (∃ p ∈ specRequired P.dominanceDistribution, P.dominanceParameters p = none)

/-! ## Concrete states -/

/-- A diploid parent over the loci 5, 15 and 35, with six distinct alleles. -/
def parent3 : Genes :=
  [(5, [some ⟨1, 1/10, 1/2⟩, some ⟨2, 2/10, 1/2⟩]),
   (15, [some ⟨3, 3/10, 1/2⟩, some ⟨4, 4/10, 1/2⟩]),
   (35, [some ⟨5, 5/10, 1/2⟩, some ⟨6, 6/10, 1/2⟩])]

/-- A second diploid parent over the loci 5, 15 and 35. -/
def father3 : Genes :=
  [(5, [some ⟨7, 0, 0⟩, some ⟨8, 1/4, 1⟩]),
   (15, [none, some ⟨9, 1/3, 1/5⟩]),
   (35, [some ⟨10, 1/2, 1/2⟩, some ⟨11, 1, 0⟩])]

/-- The offspring of `parent3` (mother, copy 0) and `father3` (father, copy 1). -/
def offspring3 : Genes :=
  [(5, [some ⟨1, 1/10, 1/2⟩, some ⟨8, 1/4, 1⟩]),
   (15, [some ⟨3, 3/10, 1/2⟩, some ⟨9, 1/3, 1/5⟩]),
   (35, [some ⟨5, 5/10, 1/2⟩, some ⟨11, 1, 0⟩])]

/-- Parameters `min = 0`, `max = 1` of a uniform distribution. -/
def uniformParams : GenParams := fun p =>
  match p with
  | .MIN => some 0
  | .MAX => some 1
  | _ => none

/-- A haploid species with one configured position and valid distributions. -/
def haploidSpecies : SpeciesTrait :=
  { ploidy := 1, genePositions := [5], mutationDistribution := .UNIFORM,
    mutationParameters := uniformParams, dominanceDistribution := .SCALED,
    dominanceParameters := fun _ => none,
    isValidTraitVal := fun s => decide (0 ≤ s ∧ s ≤ 1) }

/-- A homozygous diploid state: `(s, h) = (1/5, 1/2)` at locus 5 carried by two distinct
allele objects, and `(1/2, 0)` at locus 7 carried by one shared object. -/
def homozygous2 : Genes :=
  [(5, [some ⟨1, 1/5, 1/2⟩, some ⟨2, 1/5, 1/2⟩]), (7, [some ⟨3, 1/2, 0⟩, some ⟨3, 1/2, 0⟩])]

/-- A diploid species with one configured position, uniform selection and dominance
coefficients, and the validity predicate `0 <= s <= 1`. -/
def diploidSpecies : SpeciesTrait :=
  { ploidy := 2, genePositions := [5], mutationDistribution := .UNIFORM,
    mutationParameters := uniformParams, dominanceDistribution := .UNIFORM,
    dominanceParameters := uniformParams,
    isValidTraitVal := fun s => decide (0 ≤ s ∧ s ≤ 1) }

/-- A diploid species over the positions 5, 15 and 35, with uniform selection and dominance
coefficients and the validity predicate `0 <= s <= 1`. -/
def diploidSpecies3 : SpeciesTrait :=
  { ploidy := 2, genePositions := [5, 15, 35], mutationDistribution := .UNIFORM,
    mutationParameters := uniformParams, dominanceDistribution := .UNIFORM,
    dominanceParameters := uniformParams,
    isValidTraitVal := fun s => decide (0 ≤ s ∧ s ≤ 1) }

/-- Parameters `min = -1`, `max = 1` of a uniform distribution. -/
def wideParams : GenParams := fun p =>
  match p with
  | .MIN => some (-1)
  | .MAX => some 1
  | _ => none

/-- A species with one position, selection coefficients drawn from UNIFORM(-1, 1), and the
validity predicate `0 <= s <= 1`. -/
def uniformWideSpecies : SpeciesTrait :=
  { ploidy := 1, genePositions := [5], mutationDistribution := .UNIFORM,
    mutationParameters := wideParams, dominanceDistribution := .UNIFORM,
    dominanceParameters := uniformParams,
    isValidTraitVal := fun s => decide (0 ≤ s ∧ s ≤ 1) }

/-- A diploid locus with the wild type on the maternal copy and a mutant allele with
`(s, h) = (1/2, 0)` on the paternal copy. -/
def recessiveLocus : Genes := [(5, [some wildType, some ⟨1, 1/2, 0⟩])]

/-! ## Lemmas on the map operations -/

theorem find_eq_none_iff (g : Genes) (L : Nat) : find g L = none ↔ L ∉ keys g := by
  induction g with
  | nil => simp [find, keys]
  | cons p rest ih =>
    obtain ⟨k, v⟩ := p
    by_cases h : k = L
    · simp [find, keys, h]
    · have h2 : ¬ L = k := fun e => h e.symm
      simp [find, h, h2, ih, keys]

theorem find_of_mem (g : Genes) (hg : Ascending (keys g)) (L : Nat) (v : Slots)
    (hmem : (L, v) ∈ g) : find g L = some v := by
  induction g with
  | nil => simp at hmem
  | cons p rest ih =>
    obtain ⟨k, w⟩ := p
    simp only [keys, List.map_cons, Ascending, List.pairwise_cons] at hg
    rcases List.mem_cons.1 hmem with h | h
    · cases h; simp [find]
    · have hk : k < L := hg.1 L (List.mem_map.2 ⟨(L, v), h, rfl⟩)
      have hne : ¬ k = L := by omega
      simp only [find, hne, if_false]
      exact ih hg.2 h

theorem mem_of_find (g : Genes) (L : Nat) (v : Slots) (h : find g L = some v) :
    (L, v) ∈ g := by
  induction g with
  | nil => simp [find] at h
  | cons p rest ih =>
    obtain ⟨k, w⟩ := p
    by_cases hk : k = L
    · simp [find, hk] at h; simp [hk, h]
    · simp only [find, hk, if_false] at h
      exact List.mem_cons_of_mem _ (ih h)

theorem find_insert (g : Genes) (L : Nat) (v : Slots) (habs : find g L = none) (L' : Nat) :
    find (insert g L v) L' = if L' = L then some v else find g L' := by
  induction g with
  | nil =>
    by_cases h : L = L'
    · simp [insert, find, h]
    · have h2 : ¬ L' = L := fun e => h e.symm
      simp [insert, find, h, h2]
  | cons p rest ih =>
    obtain ⟨k, w⟩ := p
    have hk : ¬ k = L := by
      intro e; simp [find, e] at habs
    have hk2 : ¬ L = k := fun e => hk e.symm
    have habs2 : find rest L = none := by simpa [find, hk] using habs
    by_cases hlt : L < k
    · by_cases h : L = L'
      · subst h; simp [insert, find, hlt]
      · have h2 : ¬ L' = L := fun e => h e.symm
        simp [insert, find, hlt, h, h2]
    · simp only [insert, hlt, if_false, hk2, find, ih habs2]
      by_cases h : k = L'
      · have h3 : ¬ L' = L := by omega
        simp [h, h3]
      · simp [h]

theorem find_assign (g : Genes) (L : Nat) (v : Slots) (L' : Nat) :
    find (assign g L v) L' = if L' = L then (find g L).map (fun _ => v) else find g L' := by
  induction g with
  | nil => simp [assign, find]
  | cons p rest ih =>
    obtain ⟨k, w⟩ := p
    by_cases hk : k = L
    · by_cases h : L' = L
      · simp [assign, find, hk, h]
      · have h2 : ¬ L = L' := fun e => h e.symm
        simp [assign, find, hk, h, h2]
    · simp only [assign, hk, if_false, find, ih]
      by_cases h : k = L'
      · have h3 : ¬ L' = L := by omega
        simp [h, h3]
      · simp [h]

theorem keys_assign (g : Genes) (L : Nat) (v : Slots) : keys (assign g L v) = keys g := by
  induction g with
  | nil => simp [assign, keys]
  | cons p rest ih =>
    obtain ⟨k, w⟩ := p
    by_cases hk : k = L
    · simp [assign, keys, hk]
    · simp only [keys] at ih
      simp [assign, keys, hk, ih]

/-! ## Lemmas on the breakpoint walk -/

theorem countBelow_append_of_lt (skipped rest : List Nat) (L : Nat)
    (h : ∀ b ∈ skipped, b < L) :
    countBelow (skipped ++ rest) L = skipped.length + countBelow rest L := by
  unfold countBelow
  rw [List.filter_append, List.length_append]
  congr 1
  rw [List.filter_eq_self.2]
  intro b hb
  simpa using h b hb

theorem countBelow_eq_zero (nb : Nat) (after : List Nat) (L : Nat)
    (hasc : Ascending (nb :: after)) (hle : L ≤ nb) : countBelow (nb :: after) L = 0 := by
  unfold countBelow
  rw [List.length_eq_zero, List.filter_eq_nil_iff]
  intro b hb
  simp only [Ascending, List.pairwise_cons] at hasc
  rcases List.mem_cons.1 hb with h | h
  · subst h; simpa using hle
  · have := hasc.1 b h
    simp only [decide_eq_true_eq]; omega

theorem index_some (pair : Slots) (c : Int) (hlen : pair.length = 2) (hc : c = 0 ∨ c = 1) :
    ∃ a, index pair c = some a := by
  match pair, hlen with
  | [x, y], _ =>
    rcases hc with h | h
    · exact ⟨x, by subst h; simp [index]⟩
    · exact ⟨y, by subst h; simp [index]⟩

/-- A breakpoint below `2^31` is stored in `int nextBreakpoint` unchanged. -/
theorem toInt_of_lt (u : Nat) (h : u < 2147483648) : toInt u = (u : Int) := by
  have hmod : u % 4294967296 = u := Nat.mod_eq_of_lt (by omega)
  simp [toInt, hmod, h]

/-- A breakpoint from `2^31` on (and below `2^32`) is stored as a negative `int`. -/
theorem toInt_of_ge (u : Nat) (h : 2147483648 ≤ u) (h32 : u < 4294967296) : toInt u < 0 := by
  have hmod : u % 4294967296 = u := Nat.mod_eq_of_lt h32
  have hn : ¬ u < 2147483648 := by omega
  simp only [toInt, hmod, hn, if_false]
  omega

theorem inRange_tail (nb : Nat) (after : List Nat) (h : InRange (nb :: after)) :
    InRange after := fun b hb => h b (List.mem_cons_of_mem _ hb)

theorem advancePast_spec (L : Nat) (after : List Nat) : ∀ (nb : Nat) (c : Int),
    (c = 0 ∨ c = 1) → (∃ b ∈ nb :: after, L ≤ b) → InRange (nb :: after) →
    ∃ (skipped : List Nat) (nb' : Nat) (after' : List Nat) (c' : Int),
      advancePast L (nb : Int) after c = some ((nb' : Int), after', c') ∧
      nb :: after = skipped ++ nb' :: after' ∧ (∀ b ∈ skipped, b < L) ∧ L ≤ nb' ∧
      (c' = 0 ∨ c' = 1) ∧ c' = (c + (skipped.length : Int)) % 2 := by
  induction after with
  | nil =>
    intro nb c hc hcov _
    obtain ⟨b, hb, hle⟩ := hcov
    simp only [List.mem_singleton] at hb
    subst hb
    have hn : ¬ (L : Int) > (b : Int) := by omega
    refine ⟨[], b, [], c, ?_, rfl, by simp, hle, hc, ?_⟩
    · rw [advancePast]; simp [hn]
    · simp only [List.length_nil]; omega
  | cons b after ih =>
    intro nb c hc hcov hrange
    by_cases h : L > nb
    · have hcov' : ∃ b' ∈ b :: after, L ≤ b' := by
        obtain ⟨x, hx, hle⟩ := hcov
        rcases List.mem_cons.1 hx with e | e
        · subst e; omega
        · exact ⟨x, e, hle⟩
      obtain ⟨skipped, nb', after', c', he, hsplit, hsk, hle, hc', hpar⟩ :=
        ih b (1 - c) (by omega) hcov' (inRange_tail nb _ hrange)
      have h' : (L : Int) > (nb : Int) := by omega
      have hb : toInt b = (b : Int) :=
        toInt_of_lt b (hrange b (List.mem_cons_of_mem _ (List.mem_cons_self _ _)))
      refine ⟨nb :: skipped, nb', after', c', ?_, by simp [hsplit], ?_, hle, hc', ?_⟩
      · rw [advancePast]; simp only [h', if_true, hb]; exact he
      · intro x hx
        rcases List.mem_cons.1 hx with e | e
        · subst e; omega
        · exact hsk x e
      · simp only [List.length_cons]; push_cast; omega
    · have h' : ¬ (L : Int) > (nb : Int) := by omega
      refine ⟨[], nb, b :: after, c, ?_, rfl, by simp, by omega, hc, ?_⟩
      · rw [advancePast]; simp [h']
      · simp only [List.length_nil]; omega

/-- What one step of the walk establishes for the first locus and for the later ones. -/
theorem walk_step (L0 : Nat) (restKeys : List Nat) (nb : Nat) (after : List Nat) (c : Int)
    (hasc : Ascending (L0 :: restKeys)) (hB : Ascending (nb :: after)) (hc : c = 0 ∨ c = 1)
    (hcov : ∀ L ∈ L0 :: restKeys, ∃ b ∈ nb :: after, L ≤ b) (hrange : InRange (nb :: after)) :
    ∃ (nb' : Nat) (after' : List Nat) (c' : Int),
      advancePast L0 (nb : Int) after c = some ((nb' : Int), after', c') ∧ L0 ≤ nb' ∧
      Ascending (nb' :: after') ∧ InRange (nb' :: after') ∧ (c' = 0 ∨ c' = 1) ∧
      (∀ L ∈ restKeys, ∃ b ∈ nb' :: after', L ≤ b) ∧
      copyAt c (nb :: after) L0 = c' ∧
      (∀ L ∈ restKeys, copyAt c (nb :: after) L = copyAt c' (nb' :: after') L) := by
  obtain ⟨skipped, nb', after', c', he, hsplit, hsk, hle, hc', hpar⟩ :=
    advancePast_spec L0 after nb c hc (hcov L0 (List.mem_cons_self _ _)) hrange
  have hrange' : InRange (nb' :: after') := fun b hb =>
    hrange b (by rw [hsplit]; exact List.mem_append_right _ hb)
  have hasc' : Ascending (nb' :: after') := by
    unfold Ascending at hB ⊢
    rw [hsplit] at hB
    exact (List.pairwise_append.1 hB).2.1
  have hgt : ∀ L ∈ restKeys, L0 < L := by
    simp only [Ascending, List.pairwise_cons] at hasc
    exact hasc.1
  refine ⟨nb', after', c', he, hle, hasc', hrange', hc', ?_, ?_, ?_⟩
  · intro L hL
    obtain ⟨b, hb, hbl⟩ := hcov L (List.mem_cons_of_mem _ hL)
    rw [hsplit] at hb
    rcases List.mem_append.1 hb with h | h
    · have h1 := hsk b h
      have h2 := hgt L hL
      omega
    · exact ⟨b, h, hbl⟩
  · unfold copyAt
    rw [hsplit, countBelow_append_of_lt _ _ _ hsk, countBelow_eq_zero _ _ _ hasc' hle, hpar]
    push_cast; omega
  · intro L hL
    have hsk' : ∀ b ∈ skipped, b < L := fun b hb => by
      have h1 := hsk b hb
      have h2 := hgt L hL
      omega
    unfold copyAt
    rw [hsplit, countBelow_append_of_lt _ _ _ hsk', hpar]
    push_cast; omega

/-- The walk in the mother role: it succeeds exactly when no parent locus is present in
the offspring, and then creates every parent locus with the allele of the parity rule. -/
theorem inheritLoop_mother (parent : Genes) :
    ∀ (nb : Nat) (after : List Nat) (c : Int) (genes : Genes),
    Ascending (keys parent) → Ascending (nb :: after) → (c = 0 ∨ c = 1) → Diploid parent →
    (∀ L ∈ keys parent, ∃ b ∈ nb :: after, L ≤ b) → InRange (nb :: after) →
    ((∀ L ∈ keys parent, find genes L = none) →
      ∃ genes', inheritLoop true parent (nb : Int) after c genes = .ok genes' ∧
        (∀ L pair, (L, pair) ∈ parent →
          ∃ a, index pair (copyAt c (nb :: after) L) = some a ∧
            find genes' L = some [a, none]) ∧
        (∀ L, L ∉ keys parent → find genes' L = find genes L)) ∧
    ((∃ L ∈ keys parent, find genes L ≠ none) →
      ∃ genes', inheritLoop true parent (nb : Int) after c genes
        = .thrown .motherLocusExists genes') := by
  induction parent with
  | nil =>
    intro nb after c genes _ _ _ _ _ _
    refine ⟨fun _ => ⟨genes, by simp [inheritLoop], by simp, by simp⟩, ?_⟩
    rintro ⟨L, hL, _⟩
    simp [keys] at hL
  | cons p rest ih =>
    intro nb after c genes hasc hB hc hdip hcov hrange
    obtain ⟨L0, pair0⟩ := p
    have hasc0 : Ascending (L0 :: keys rest) := by simpa [keys] using hasc
    obtain ⟨nb', after', c', he, hle, hasc', hrange', hc', hcov', hcopy0, hcopy⟩ :=
      walk_step L0 (keys rest) nb after c hasc0 hB hc (by simpa [keys] using hcov) hrange
    have hle' : (L0 : Int) ≤ (nb' : Int) := by omega
    have hgt : ∀ L ∈ keys rest, L0 < L := by
      simp only [Ascending, List.pairwise_cons] at hasc0
      exact hasc0.1
    have hnot : L0 ∉ keys rest := fun h => by have := hgt L0 h; omega
    obtain ⟨a, ha⟩ := index_some pair0 c' (hdip (L0, pair0) (List.mem_cons_self _ _)) hc'
    have hrestAsc : Ascending (keys rest) := by
      simp only [Ascending, List.pairwise_cons] at hasc0
      exact hasc0.2
    have hrestDip : Diploid rest := fun q hq => hdip q (List.mem_cons_of_mem _ hq)
    have hrun : inheritLoop true ((L0, pair0) :: rest) (nb : Int) after c genes =
        match find genes L0 with
        | none => inheritLoop true rest (nb' : Int) after' c' (insert genes L0 [a, none])
        | some _ => .thrown .motherLocusExists genes := by
      rw [inheritLoop]
      simp only [he, hle', if_true, inheritLocus, ha]
      cases find genes L0 <;> simp [FEM]
    rw [hrun]
    constructor
    · intro habs
      have h0 : find genes L0 = none := habs L0 (by simp [keys])
      simp only [h0]
      have habs' : ∀ L ∈ keys rest, find (insert genes L0 [a, none]) L = none := by
        intro L hL
        rw [find_insert _ _ _ h0]
        have := hgt L hL
        have hne : ¬ L = L0 := by omega
        simp only [hne, if_false]
        exact habs L (by simp [keys] at hL ⊢; exact Or.inr hL)
      obtain ⟨genes', hok, hchar, hframe⟩ :=
        (ih nb' after' c' (insert genes L0 [a, none]) hrestAsc hasc' hc' hrestDip hcov'
          hrange').1 habs'
      refine ⟨genes', hok, ?_, ?_⟩
      · intro L pair hmem
        rcases List.mem_cons.1 hmem with h | h
        · cases h
          refine ⟨a, by rw [hcopy0]; exact ha, ?_⟩
          rw [hframe L0 hnot, find_insert _ _ _ h0]
          simp
        · have hL : L ∈ keys rest := List.mem_map.2 ⟨(L, pair), h, rfl⟩
          rw [hcopy L hL]
          exact hchar L pair h
      · intro L hL
        have hne : ¬ L = L0 := by
          intro e; apply hL; simp [keys, e]
        have hLr : L ∉ keys rest := by
          intro e; apply hL; simp only [keys, List.map_cons, List.mem_cons]; exact Or.inr e
        rw [hframe L hLr, find_insert _ _ _ h0]
        simp [hne]
    · rintro ⟨L, hL, hpres⟩
      cases h0 : find genes L0 with
      | some slots => exact ⟨genes, rfl⟩
      | none =>
        simp only
        have hLr : L ∈ keys rest := by
          simp only [keys, List.map_cons, List.mem_cons] at hL
          rcases hL with e | e
          · subst e; exact absurd h0 hpres
          · exact e
        have hne : ¬ L = L0 := by have := hgt L hLr; omega
        have hpres' : find (insert genes L0 [a, none]) L ≠ none := by
          rw [find_insert _ _ _ h0]
          simpa [hne] using hpres
        exact (ih nb' after' c' (insert genes L0 [a, none]) hrestAsc hasc' hc' hrestDip
          hcov' hrange').2 ⟨L, hLr, hpres'⟩

/-- The walk in the father role: it succeeds exactly when every parent locus is present in
the offspring, and then rewrites slot `MAL` of every parent locus with the allele of the
parity rule, leaving everything else as it was. -/
theorem inheritLoop_father (parent : Genes) :
    ∀ (nb : Nat) (after : List Nat) (c : Int) (genes : Genes),
    Ascending (keys parent) → Ascending (nb :: after) → (c = 0 ∨ c = 1) → Diploid parent →
    (∀ L ∈ keys parent, ∃ b ∈ nb :: after, L ≤ b) → InRange (nb :: after) →
    (∀ L slots, find genes L = some slots → slots.length = 2) →
    ((∀ L ∈ keys parent, find genes L ≠ none) →
      ∃ genes', inheritLoop false parent (nb : Int) after c genes = .ok genes' ∧
        (∀ L pair, (L, pair) ∈ parent →
          ∃ a slots, index pair (copyAt c (nb :: after) L) = some a ∧
            find genes L = some slots ∧ find genes' L = some (slots.set MAL a)) ∧
        (∀ L, L ∉ keys parent → find genes' L = find genes L) ∧
        keys genes' = keys genes) ∧
    ((∃ L ∈ keys parent, find genes L = none) →
      ∃ genes', inheritLoop false parent (nb : Int) after c genes
        = .thrown .fatherLocusMissing genes') := by
  induction parent with
  | nil =>
    intro nb after c genes _ _ _ _ _ _ _
    refine ⟨fun _ => ⟨genes, by simp [inheritLoop], by simp, by simp, rfl⟩, ?_⟩
    rintro ⟨L, hL, _⟩
    simp [keys] at hL
  | cons p rest ih =>
    intro nb after c genes hasc hB hc hdip hcov hrange hoff
    obtain ⟨L0, pair0⟩ := p
    have hasc0 : Ascending (L0 :: keys rest) := by simpa [keys] using hasc
    obtain ⟨nb', after', c', he, hle, hasc', hrange', hc', hcov', hcopy0, hcopy⟩ :=
      walk_step L0 (keys rest) nb after c hasc0 hB hc (by simpa [keys] using hcov) hrange
    have hle' : (L0 : Int) ≤ (nb' : Int) := by omega
    have hgt : ∀ L ∈ keys rest, L0 < L := by
      simp only [Ascending, List.pairwise_cons] at hasc0
      exact hasc0.1
    have hnot : L0 ∉ keys rest := fun h => by have := hgt L0 h; omega
    obtain ⟨a, ha⟩ := index_some pair0 c' (hdip (L0, pair0) (List.mem_cons_self _ _)) hc'
    have hrestAsc : Ascending (keys rest) := by
      simp only [Ascending, List.pairwise_cons] at hasc0
      exact hasc0.2
    have hrestDip : Diploid rest := fun q hq => hdip q (List.mem_cons_of_mem _ hq)
    have hrun : inheritLoop false ((L0, pair0) :: rest) (nb : Int) after c genes =
        match find genes L0 with
        | none => .thrown .fatherLocusMissing genes
        | some slots =>
          inheritLoop false rest (nb' : Int) after' c' (assign genes L0 (slots.set MAL a)) := by
      rw [inheritLoop]
      simp only [he, hle', if_true, inheritLocus, ha]
      cases h0 : find genes L0 with
      | none => simp
      | some slots =>
        have hl : MAL < slots.length := by rw [hoff L0 slots h0]; decide
        simp [hl]
    rw [hrun]
    have hoff' : ∀ slots0, find genes L0 = some slots0 → ∀ L slots,
        find (assign genes L0 (slots0.set MAL a)) L = some slots → slots.length = 2 := by
      intro slots0 h0 L slots hf
      rw [find_assign] at hf
      by_cases e : L = L0
      · simp only [e, if_true, h0, Option.map_some', Option.some.injEq] at hf
        rw [← hf, List.length_set]
        exact hoff L0 slots0 h0
      · simp only [e, if_false] at hf
        exact hoff L slots hf
    constructor
    · intro hpres
      have h0n : find genes L0 ≠ none := hpres L0 (by simp [keys])
      obtain ⟨slots0, h0⟩ := Option.ne_none_iff_exists'.1 h0n
      simp only [h0]
      have hpres' : ∀ L ∈ keys rest, find (assign genes L0 (slots0.set MAL a)) L ≠ none := by
        intro L hL
        rw [find_assign]
        have := hgt L hL
        have hne : ¬ L = L0 := by omega
        simp only [hne, if_false]
        exact hpres L (by simp only [keys, List.map_cons, List.mem_cons]; exact Or.inr hL)
      obtain ⟨genes', hok, hchar, hframe, hkeys⟩ :=
        (ih nb' after' c' (assign genes L0 (slots0.set MAL a)) hrestAsc hasc' hc' hrestDip hcov'
          hrange' (hoff' slots0 h0)).1 hpres'
      refine ⟨genes', hok, ?_, ?_, ?_⟩
      · intro L pair hmem
        rcases List.mem_cons.1 hmem with h | h
        · cases h
          refine ⟨a, slots0, by rw [hcopy0]; exact ha, h0, ?_⟩
          rw [hframe L0 hnot, find_assign]
          simp [h0]
        · have hL : L ∈ keys rest := List.mem_map.2 ⟨(L, pair), h, rfl⟩
          have hne : ¬ L = L0 := by have := hgt L hL; omega
          obtain ⟨a', slots, hi, hf, hf'⟩ := hchar L pair h
          rw [find_assign] at hf
          simp only [hne, if_false] at hf
          exact ⟨a', slots, by rw [hcopy L hL]; exact hi, hf, hf'⟩
      · intro L hL
        have hne : ¬ L = L0 := by
          intro e; apply hL; simp [keys, e]
        have hLr : L ∉ keys rest := by
          intro e; apply hL; simp only [keys, List.map_cons, List.mem_cons]; exact Or.inr e
        rw [hframe L hLr, find_assign]
        simp [hne]
      · rw [hkeys, keys_assign]
    · rintro ⟨L, hL, habs⟩
      cases h0 : find genes L0 with
      | none => exact ⟨genes, rfl⟩
      | some slots0 =>
        simp only
        have hLr : L ∈ keys rest := by
          simp only [keys, List.map_cons, List.mem_cons] at hL
          rcases hL with e | e
          · subst e; rw [h0] at habs; cases habs
          · exact e
        have hne : ¬ L = L0 := by have := hgt L hLr; omega
        have habs' : find (assign genes L0 (slots0.set MAL a)) L = none := by
          rw [find_assign]
          simpa [hne] using habs
        exact (ih nb' after' c' (assign genes L0 (slots0.set MAL a)) hrestAsc hasc' hc' hrestDip
          hcov' hrange' (hoff' slots0 h0)).2 ⟨L, hLr, habs'⟩

/-- The prologue of `inheritDiploid` (`lower_bound`, `distance`, initial flip) hands the
loop a valid iterator and the copy that the parity rule prescribes. -/
theorem inheritDiploid_eq_loop (fromMother : Bool) (parent : Genes) (B : List Nat) (c : Int)
    (genes : Genes) (hne : parent ≠ []) (hasc : Ascending (keys parent)) (hB : Ascending B)
    (hc : c = 0 ∨ c = 1) (hcov : Covers B (keys parent)) (hrange : InRange B) :
    ∃ (nb : Nat) (after : List Nat) (c' : Int), inheritDiploid fromMother parent B c genes =
        inheritLoop fromMother parent (nb : Int) after c' genes ∧
      Ascending (nb :: after) ∧ InRange (nb :: after) ∧ (c' = 0 ∨ c' = 1) ∧
      (∀ L ∈ keys parent, ∃ b ∈ nb :: after, L ≤ b) ∧
      (∀ L ∈ keys parent, copyAt c B L = copyAt c' (nb :: after) L) := by
  match parent, hne with
  | (first, pair) :: rest, _ =>
    have hfirst : ∀ L ∈ keys ((first, pair) :: rest), first ≤ L := by
      intro L hL
      simp only [keys, List.map_cons, List.mem_cons] at hL
      simp only [keys, List.map_cons, Ascending, List.pairwise_cons] at hasc
      rcases hL with e | e
      · omega
      · exact Nat.le_of_lt (hasc.1 L e)
    have hsplit := List.takeWhile_append_dropWhile (fun b => decide (b < first)) B
    have htake : ∀ b ∈ B.takeWhile (fun b => decide (b < first)), b < first := by
      intro b hb
      simpa using List.mem_takeWhile_imp hb
    obtain ⟨bc, hbc, hbcov⟩ := hcov
    have hbcdrop : bc ∈ B.dropWhile (fun b => decide (b < first)) := by
      rw [← hsplit] at hbc
      rcases List.mem_append.1 hbc with h | h
      · have h1 := htake bc h
        have h2 := hbcov first (by simp [keys])
        omega
      · exact h
    cases hd : B.dropWhile (fun b => decide (b < first)) with
    | nil => rw [hd] at hbcdrop; simp at hbcdrop
    | cons nb after =>
      have hascd : Ascending (nb :: after) := by
        unfold Ascending at hB ⊢
        rw [← hd]
        exact hB.sublist (List.dropWhile_sublist _)
      have hranged : InRange (nb :: after) := fun b hb =>
        hrange b ((List.dropWhile_sublist _).subset (by rw [hd]; exact hb))
      refine ⟨nb, after,
        if (B.takeWhile (fun b => decide (b < first))).length % 2 ≠ 0 then 1 - c else c,
        ?_, hascd, hranged, ?_, ?_, ?_⟩
      · simp only [inheritDiploid, hd, toInt_of_lt nb (hranged nb (List.mem_cons_self _ _))]
      · split <;> omega
      · intro L _
        exact ⟨bc, by rw [← hd]; exact hbcdrop, hbcov L (by assumption)⟩
      · intro L hL
        have hlt : ∀ b ∈ B.takeWhile (fun b => decide (b < first)), b < L := fun b hb => by
          have h1 := htake b hb
          have h2 := hfirst L hL
          omega
        unfold copyAt
        conv_lhs => rw [← hsplit, hd, countBelow_append_of_lt _ _ _ hlt]
        split <;> (push_cast; omega)

/-- A maternal call whose first parent locus is already in the offspring throws at once. -/
theorem inheritDiploid_mother_first (L0 : Nat) (pair0 : Slots) (rest : Genes) (B : List Nat)
    (c : Int) (genes : Genes) (hasc : Ascending (keys ((L0, pair0) :: rest)))
    (hB : Ascending B) (hc : c = 0 ∨ c = 1) (hdip : Diploid ((L0, pair0) :: rest))
    (hcov : Covers B (keys ((L0, pair0) :: rest))) (hrange : InRange B) (slots : Slots)
    (hpres : find genes L0 = some slots) :
    inheritDiploid true ((L0, pair0) :: rest) B c genes = .thrown .motherLocusExists genes := by
  obtain ⟨nb, after, c1, hrun, hascd, hranged, hc1, hcov1, _⟩ :=
    inheritDiploid_eq_loop true ((L0, pair0) :: rest) B c genes (by simp) hasc hB hc hcov hrange
  have hasc0 : Ascending (L0 :: keys rest) := by simpa [keys] using hasc
  obtain ⟨nb', after', c', he, hle, _, _, hc', _, _, _⟩ :=
    walk_step L0 (keys rest) nb after c1 hasc0 hascd hc1 (by simpa [keys] using hcov1) hranged
  obtain ⟨a, ha⟩ := index_some pair0 c' (hdip (L0, pair0) (List.mem_cons_self _ _)) hc'
  have hle' : (L0 : Int) ≤ (nb' : Int) := by omega
  rw [hrun, inheritLoop]
  simp [he, hle', inheritLocus, ha, hpres]

theorem diploid_find (genes : Genes) (h : Diploid genes) :
    ∀ L slots, find genes L = some slots → slots.length = 2 :=
  fun L slots hf => h (L, slots) (mem_of_find genes L slots hf)

/-- The function `inheritDiploid` in the mother role, for a breakpoint set that covers the
parent loci. -/
theorem inheritDiploid_mother (parent : Genes) (B : List Nat) (c : Int) (genes : Genes)
    (hne : parent ≠ []) (hasc : Ascending (keys parent)) (hdip : Diploid parent)
    (hB : Ascending B) (hc : c = 0 ∨ c = 1) (hcov : Covers B (keys parent))
    (hrange : InRange B) :
    ((∀ L ∈ keys parent, find genes L = none) →
      ∃ genes', inheritDiploid true parent B c genes = .ok genes' ∧
        (∀ L pair, (L, pair) ∈ parent →
          ∃ a, index pair (copyAt c B L) = some a ∧ find genes' L = some [a, none]) ∧
        (∀ L, L ∉ keys parent → find genes' L = find genes L)) ∧
    ((∃ L ∈ keys parent, find genes L ≠ none) →
      ∃ genes', inheritDiploid true parent B c genes = .thrown .motherLocusExists genes') := by
  obtain ⟨nb, after, c', hrun, hascd, hranged, hc', hcov', hcopy⟩ :=
    inheritDiploid_eq_loop true parent B c genes hne hasc hB hc hcov hrange
  have h := inheritLoop_mother parent nb after c' genes hasc hascd hc' hdip hcov' hranged
  rw [hrun]
  refine ⟨fun habs => ?_, h.2⟩
  obtain ⟨genes', hok, hchar, hframe⟩ := h.1 habs
  refine ⟨genes', hok, ?_, hframe⟩
  intro L pair hmem
  rw [hcopy L (List.mem_map.2 ⟨(L, pair), hmem, rfl⟩)]
  exact hchar L pair hmem

/-- The function `inheritDiploid` in the father role, for a breakpoint set that covers the
parent loci. -/
theorem inheritDiploid_father (parent : Genes) (B : List Nat) (c : Int) (genes : Genes)
    (hne : parent ≠ []) (hasc : Ascending (keys parent)) (hdip : Diploid parent)
    (hB : Ascending B) (hc : c = 0 ∨ c = 1) (hcov : Covers B (keys parent))
    (hrange : InRange B)
    (hoff : ∀ L slots, find genes L = some slots → slots.length = 2) :
    ((∀ L ∈ keys parent, find genes L ≠ none) →
      ∃ genes', inheritDiploid false parent B c genes = .ok genes' ∧
        (∀ L pair, (L, pair) ∈ parent →
          ∃ a slots, index pair (copyAt c B L) = some a ∧
            find genes L = some slots ∧ find genes' L = some (slots.set MAL a)) ∧
        (∀ L, L ∉ keys parent → find genes' L = find genes L) ∧
        keys genes' = keys genes) ∧
    ((∃ L ∈ keys parent, find genes L = none) →
      ∃ genes', inheritDiploid false parent B c genes = .thrown .fatherLocusMissing genes') := by
  obtain ⟨nb, after, c', hrun, hascd, hranged, hc', hcov', hcopy⟩ :=
    inheritDiploid_eq_loop false parent B c genes hne hasc hB hc hcov hrange
  have h := inheritLoop_father parent nb after c' genes hasc hascd hc' hdip hcov' hranged hoff
  rw [hrun]
  refine ⟨fun hpres => ?_, h.2⟩
  obtain ⟨genes', hok, hchar, hframe, hkeys⟩ := h.1 hpres
  refine ⟨genes', hok, ?_, hframe, hkeys⟩
  intro L pair hmem
  rw [hcopy L (List.mem_map.2 ⟨(L, pair), hmem, rfl⟩)]
  exact hchar L pair hmem

/-! ## Claims on inheritance -/

/-! ### C1 -/

/-- C1 (as stated, refuted): the breakpoint set `{3000000000}` has its largest element at or
beyond the largest locus of the diploid parent `parent3`, yet the call completes in neither
role. The breakpoint is stored in an `int`, where it is negative; every locus exceeds it, so
the iterator is advanced to `recomPositions.end()` and dereferenced there. -/
theorem inheritDiploid_breakpoint_beyond_int :
    (∃ b ∈ [3000000000], ∀ L ∈ keys parent3, L ≤ b) ∧
    toInt 3000000000 = -1294967296 ∧
    inheritDiploid true parent3 [3000000000] 0 [] = Outcome.undefinedBehaviour ∧
    inheritDiploid false parent3 [3000000000] 0 offspring3 = Outcome.undefinedBehaviour := by
  refine ⟨⟨3000000000, by simp, by simp [parent3, keys]⟩, by simp [toInt], ?_, ?_⟩ <;>
    simp [inheritDiploid, inheritLoop, advancePast, toInt, parent3]

/-- C1 (amended): `inheritDiploid` follows the breakpoint-parity rule. For a non-empty
diploid parent state, a starting copy `c` in `{0, 1}` and a breakpoint set `B` of positions
below `2^31` with an element at or beyond every parent locus, a call into a diploid
offspring state made in the order the function assumes (mother role: no parent locus is in
the offspring yet; father role: every parent locus is) returns normally, and every parent
locus `L` then holds, in slot `FEM` for the mother and `MAL` for the father, the parent
allele of copy `(c + |{b in B : b < L}|) mod 2`. The count is strict, so a locus equal to a
breakpoint is read from the copy active before that breakpoint. -/
theorem inheritDiploid_parity (fromMother : Bool) (parentGenes : Genes) (B : List Nat)
    (c : Int) (genes : Genes) (hne : parentGenes ≠ []) (hasc : Ascending (keys parentGenes))
    (hdip : Diploid parentGenes) (hB : Ascending B) (hc : c = 0 ∨ c = 1)
    (hcov : ∃ b ∈ B, ∀ L ∈ keys parentGenes, L ≤ b) (hrange : ∀ b ∈ B, b < 2147483648)
    (hoff : Diploid genes)
    (hrole : ∀ L ∈ keys parentGenes, if fromMother then L ∉ keys genes else L ∈ keys genes) :
    ∃ genes', inheritDiploid fromMother parentGenes B c genes = .ok genes' ∧
      ∀ L pair, (L, pair) ∈ parentGenes →
        ∃ a slots,
          index pair ((c + ((B.filter (fun b => b < L)).length : Int)) % 2) = some a ∧
          find genes' L = some slots ∧
          slots[if fromMother then FEM else MAL]? = some a := by
  cases fromMother with
  | true =>
    have habs : ∀ L ∈ keys parentGenes, find genes L = none := fun L hL =>
      (find_eq_none_iff genes L).2 (by simpa using hrole L hL)
    obtain ⟨genes', hok, hchar, _⟩ :=
      (inheritDiploid_mother parentGenes B c genes hne hasc hdip hB hc hcov hrange).1 habs
    refine ⟨genes', hok, ?_⟩
    intro L pair hmem
    obtain ⟨a, hi, hf⟩ := hchar L pair hmem
    exact ⟨a, [a, none], hi, hf, by simp [FEM]⟩
  | false =>
    have hpres : ∀ L ∈ keys parentGenes, find genes L ≠ none := fun L hL h =>
      (find_eq_none_iff genes L).1 h (by simpa using hrole L hL)
    obtain ⟨genes', hok, hchar, _, _⟩ :=
      (inheritDiploid_father parentGenes B c genes hne hasc hdip hB hc hcov hrange
        (diploid_find genes hoff)).1 hpres
    refine ⟨genes', hok, ?_⟩
    intro L pair hmem
    obtain ⟨a, slots, hi, hf, hf'⟩ := hchar L pair hmem
    refine ⟨a, slots.set MAL a, hi, hf', ?_⟩
    have hlen : slots.length = 2 := hoff (L, slots) (mem_of_find genes L slots hf)
    simp [MAL, hlen]

/-- C1 (amended) at a concrete input: the parent `parent3`, breakpoints `{10, 30, 40}`,
starting copy 0, mother role, empty offspring. -/
theorem inheritDiploid_parity_witness :
    ∃ genes', inheritDiploid true parent3 [10, 30, 40] 0 [] = .ok genes' ∧
      ∀ L pair, (L, pair) ∈ parent3 →
        ∃ a slots,
          index pair ((0 + (([10, 30, 40].filter (fun b => b < L)).length : Int)) % 2)
            = some a ∧
          find genes' L = some slots ∧
          slots[if true then FEM else MAL]? = some a :=
  inheritDiploid_parity true parent3 [10, 30, 40] 0 [] (by simp [parent3])
    (by simp [parent3, keys, Ascending]) (by simp [parent3, Diploid])
    (by simp [Ascending]) (Or.inl rfl) ⟨40, by simp, by simp [parent3, keys]⟩ (by simp)
    (by simp [Diploid]) (by simp [keys])

/-! ### C2 -/

/-- C2 (as stated, refuted): with breakpoints `{10, 30}` and starting copy 0 the walk over
the loci `{5, 15, 35}` does not complete: at locus 35 it advances the iterator past the last
breakpoint and dereferences `recomPositions.end()`. -/
theorem inheritDiploid_beyond_last_breakpoint :
    inheritDiploid true parent3 [10, 30] 0 [] = Outcome.undefinedBehaviour ∧
    inheritDiploid false parent3 [10, 30] 0
      [(5, [none, none]), (15, [none, none]), (35, [none, none])]
      = Outcome.undefinedBehaviour := by
  constructor <;>
    simp [inheritDiploid, inheritLoop, advancePast, inheritLocus, index, find, insert, assign,
      parent3, FEM, MAL, toInt]

/-- C2 (amended): with breakpoints `{10, 30, e}` for any `e` at or beyond the last locus 35
and below `2^31`, starting copy 0 and any diploid parent over the loci `{5, 15, 35}`,
`inheritDiploid` completes and takes locus 5 from parental copy 0, locus 15 from copy 1 and locus 35 from
copy 0: into slot `FEM` of a new offspring in the mother role, and into slot `MAL` of an
offspring that holds these loci in the father role. -/
theorem inheritDiploid_flips_at_breakpoints (a0 a1 b0 b1 c0 c1 x y z : AllelePtr) (e : Nat)
    (he : 35 ≤ e) (hint : e < 2147483648) :
    inheritDiploid true [(5, [a0, a1]), (15, [b0, b1]), (35, [c0, c1])] [10, 30, e] 0 []
      = .ok [(5, [a0, none]), (15, [b1, none]), (35, [c0, none])] ∧
    inheritDiploid false [(5, [a0, a1]), (15, [b0, b1]), (35, [c0, c1])] [10, 30, e] 0
        [(5, [x, none]), (15, [y, none]), (35, [z, none])]
      = .ok [(5, [x, a0]), (15, [y, b1]), (35, [z, c0])] := by
  have h1 : ¬ e < 35 := by omega
  have h2 : ¬ (e : Int) < 35 := by omega
  have h3 : toInt 10 = 10 := toInt_of_lt 10 (by decide)
  have h4 : toInt 30 = 30 := toInt_of_lt 30 (by decide)
  constructor <;>
    simp [inheritDiploid, inheritLoop, advancePast, inheritLocus, index, find, insert, assign,
      FEM, MAL, h1, h2, h3, h4, toInt_of_lt e hint]

/-- C2 (amended) at a concrete input: the parent `parent3` and the breakpoints
`{10, 30, 40}`. -/
theorem inheritDiploid_flips_at_breakpoints_witness :
    35 ≤ 40 ∧ 40 < 2147483648 ∧
    inheritDiploid true parent3 [10, 30, 40] 0 []
      = .ok [(5, [some ⟨1, 1/10, 1/2⟩, none]), (15, [some ⟨4, 4/10, 1/2⟩, none]),
             (35, [some ⟨5, 5/10, 1/2⟩, none])] :=
  ⟨by decide, by decide, (inheritDiploid_flips_at_breakpoints _ _ _ _ _ _ none none none 40
    (by decide) (by decide)).1⟩

/-! ### C3 -/

/-- C3 (as stated, refuted): with an empty breakpoint set the maternal call does not
complete: `lower_bound` returns `recomPositions.end()`, which is dereferenced at once. -/
theorem inheritDiploid_no_breakpoints :
    inheritDiploid true parent3 [] 0 [] = Outcome.undefinedBehaviour := by
  simp [inheritDiploid, parent3]

/-- C3 (amended): let the breakpoint sets be non-empty with every element at or beyond every
locus (so that no crossover falls between loci) and below `2^31`, and let `cm`, `cf` in
`{0, 1}` be the starting copies.
For diploid parents over the same non-empty locus set, inheriting into an empty offspring
from the mother and then from the father completes, and at every position the offspring
holds exactly two slots: slot 0 is the mother's allele of copy `cm`, slot 1 the father's
allele of copy `cf`. For `cm = 0` and `cf = 1` these are the mother's slot-0 and the
father's slot-1 alleles. -/
theorem inheritDiploid_no_crossover (mother father : Genes) (Bm Bf : List Nat) (cm cf : Int)
    (hne : mother ≠ []) (hkeys : keys father = keys mother)
    (hascm : Ascending (keys mother)) (hdipm : Diploid mother) (hdipf : Diploid father)
    (hBm : Ascending Bm) (hBf : Ascending Bf) (hcm : cm = 0 ∨ cm = 1) (hcf : cf = 0 ∨ cf = 1)
    (hBmne : Bm ≠ []) (hBfne : Bf ≠ [])
    (hm : ∀ b ∈ Bm, ∀ L ∈ keys mother, L ≤ b) (hf : ∀ b ∈ Bf, ∀ L ∈ keys mother, L ≤ b)
    (hrm : ∀ b ∈ Bm, b < 2147483648) (hrf : ∀ b ∈ Bf, b < 2147483648) :
    ∃ g1 g2, inheritDiploid true mother Bm cm [] = .ok g1 ∧
      inheritDiploid false father Bf cf g1 = .ok g2 ∧
      ∀ L pm pf, (L, pm) ∈ mother → (L, pf) ∈ father →
        ∃ am af, index pm cm = some am ∧ index pf cf = some af ∧
          find g2 L = some [am, af] := by
  have hcovm : Covers Bm (keys mother) := by
    obtain ⟨b, hb⟩ := List.exists_mem_of_ne_nil Bm hBmne
    exact ⟨b, hb, hm b hb⟩
  have hcovf : Covers Bf (keys father) := by
    obtain ⟨b, hb⟩ := List.exists_mem_of_ne_nil Bf hBfne
    exact ⟨b, hb, by rw [hkeys]; exact hf b hb⟩
  have hnef : father ≠ [] := by
    intro e; apply hne
    have : keys mother = [] := by rw [← hkeys, e]; rfl
    simpa [keys] using this
  have hzero : ∀ (B : List Nat) (c : Int), (c = 0 ∨ c = 1) →
      (∀ b ∈ B, ∀ L ∈ keys mother, L ≤ b) → ∀ L ∈ keys mother, copyAt c B L = c := by
    intro B c hc hB L hL
    have h0 : countBelow B L = 0 := by
      unfold countBelow
      rw [List.length_eq_zero, List.filter_eq_nil_iff]
      intro b hb
      have := hB b hb L hL
      simp only [decide_eq_true_eq]; omega
    unfold copyAt
    rw [h0]; push_cast; omega
  obtain ⟨g1, hok1, hchar1, hframe1⟩ :=
    (inheritDiploid_mother mother Bm cm [] hne hascm hdipm hBm hcm hcovm hrm).1
      (fun L _ => by simp [find])
  have hmem : ∀ L ∈ keys mother, ∃ pm, (L, pm) ∈ mother := by
    intro L hL
    obtain ⟨q, hq, hqk⟩ := List.mem_map.1 hL
    exact ⟨q.2, by rw [← hqk]; exact hq⟩
  have hoff1 : ∀ L slots, find g1 L = some slots → slots.length = 2 := by
    intro L slots hfs
    by_cases hk : L ∈ keys mother
    · obtain ⟨pm, hpm⟩ := hmem L hk
      obtain ⟨a, _, hfa⟩ := hchar1 L pm hpm
      rw [hfa] at hfs
      cases hfs; rfl
    · rw [hframe1 L hk] at hfs
      simp [find] at hfs
  have hpres1 : ∀ L ∈ keys father, find g1 L ≠ none := by
    intro L hL
    rw [hkeys] at hL
    obtain ⟨pm, hpm⟩ := hmem L hL
    obtain ⟨a, _, hfa⟩ := hchar1 L pm hpm
    rw [hfa]; simp
  obtain ⟨g2, hok2, hchar2, _, _⟩ :=
    (inheritDiploid_father father Bf cf g1 hnef (by rw [hkeys]; exact hascm) hdipf hBf hcf
      hcovf hrf hoff1).1 hpres1
  refine ⟨g1, g2, hok1, hok2, ?_⟩
  intro L pm pf hpm hpf
  have hL : L ∈ keys mother := List.mem_map.2 ⟨(L, pm), hpm, rfl⟩
  obtain ⟨am, him, hfm⟩ := hchar1 L pm hpm
  obtain ⟨af, slots, hif, hfs, hf2⟩ := hchar2 L pf hpf
  rw [hzero Bm cm hcm hm L hL] at him
  rw [hzero Bf cf hcf hf L hL] at hif
  rw [hfm] at hfs
  cases hfs
  exact ⟨am, af, him, hif, by rw [hf2]; simp [MAL]⟩

/-- C3 (amended) at a concrete input: mother `parent3` read from copy 0, father `father3`
read from copy 1, one breakpoint at 35 for the mother and at 50 for the father. -/
theorem inheritDiploid_no_crossover_witness :
    ∃ g1 g2, inheritDiploid true parent3 [35] 0 [] = .ok g1 ∧
      inheritDiploid false father3 [50] 1 g1 = .ok g2 ∧
      ∀ L pm pf, (L, pm) ∈ parent3 → (L, pf) ∈ father3 →
        ∃ am af, index pm 0 = some am ∧ index pf 1 = some af ∧
          find g2 L = some [am, af] :=
  inheritDiploid_no_crossover parent3 father3 [35] [50] 0 1 (by simp [parent3])
    (by simp [parent3, father3, keys]) (by simp [parent3, keys, Ascending])
    (by simp [parent3, Diploid]) (by simp [father3, Diploid]) (by simp [Ascending])
    (by simp [Ascending]) (Or.inl rfl) (Or.inr rfl) (by simp) (by simp)
    (by simp [parent3, keys]) (by simp [parent3, keys]) (by simp) (by simp)

/-! ### C4 -/

/-- C4: haploid inheritance is copy-exact. Whatever the offspring held before, and for every
`fromMother`, breakpoint set and starting copy, `inheritHaploid` (called directly or through
`inheritGenes` with the haploid function pointer) returns normally with the offspring state
equal to the parent state: same positions, same allele references in each slot. -/
theorem inheritHaploid_copy_exact (fromMother : Bool) (parentGenes : Genes) (B : List Nat)
    (c : Int) (genes : Genes) :
    inheritHaploid fromMother parentGenes B c genes = .ok parentGenes ∧
    inheritGenes .inheritHaploid fromMother parentGenes B c genes = .ok parentGenes :=
  ⟨rfl, rfl⟩

/-! ### C5 -/

/-- C5 (as stated, refuted): the breakpoint set `{3000000000}` covers all loci of the
diploid parent `parent3`. In the father role some parent locus is absent from the empty
offspring, and in the mother role some parent locus is present in `offspring3`, yet neither
call throws: the breakpoint is negative once stored in an `int`, and the walk dereferences
`recomPositions.end()` before it reaches either test. -/
theorem inheritDiploid_no_throw_beyond_int :
    (∃ b ∈ [3000000000], ∀ L ∈ keys parent3, L ≤ b) ∧
    (∃ L ∈ keys parent3, L ∉ keys ([] : Genes)) ∧
    inheritDiploid false parent3 [3000000000] 0 [] = Outcome.undefinedBehaviour ∧
    (∃ L ∈ keys parent3, L ∈ keys offspring3) ∧
    inheritDiploid true parent3 [3000000000] 0 offspring3 = Outcome.undefinedBehaviour := by
  refine ⟨⟨3000000000, by simp, by simp [parent3, keys]⟩,
    ⟨5, by simp [parent3, keys], by simp [keys]⟩, ?_,
    ⟨5, by simp [parent3, keys], by simp [offspring3, keys]⟩, ?_⟩ <;>
    simp [inheritDiploid, inheritLoop, advancePast, toInt, parent3]

/-- C5 (amended): parental-order integrity. For a non-empty diploid parent state, a starting
copy in `{0, 1}`, a breakpoint set of positions below `2^31` covering all parent loci and a
diploid offspring state, `inheritDiploid` throws in the mother role if and only if some
parent locus is already a key of the offspring state, and throws in the father role if and
only if some parent locus is not a key of the offspring state. -/
theorem inheritDiploid_integrity (parentGenes : Genes) (B : List Nat) (c : Int)
    (genes : Genes) (hne : parentGenes ≠ []) (hasc : Ascending (keys parentGenes))
    (hdip : Diploid parentGenes) (hB : Ascending B) (hc : c = 0 ∨ c = 1)
    (hcov : ∃ b ∈ B, ∀ L ∈ keys parentGenes, L ≤ b) (hrange : ∀ b ∈ B, b < 2147483648)
    (hoff : Diploid genes) :
    ((∃ e genes', inheritDiploid true parentGenes B c genes = .thrown e genes') ↔
      ∃ L ∈ keys parentGenes, L ∈ keys genes) ∧
    ((∃ e genes', inheritDiploid false parentGenes B c genes = .thrown e genes') ↔
      ∃ L ∈ keys parentGenes, L ∉ keys genes) := by
  have hm := inheritDiploid_mother parentGenes B c genes hne hasc hdip hB hc hcov hrange
  have hf := inheritDiploid_father parentGenes B c genes hne hasc hdip hB hc hcov hrange
    (diploid_find genes hoff)
  constructor
  · constructor
    · rintro ⟨e, genes', hthrown⟩
      by_contra hnone
      have habs : ∀ L ∈ keys parentGenes, find genes L = none := by
        intro L hL
        rw [find_eq_none_iff]
        exact fun h => hnone ⟨L, hL, h⟩
      obtain ⟨g, hok, _⟩ := hm.1 habs
      rw [hok] at hthrown
      cases hthrown
    · rintro ⟨L, hL, hpres⟩
      obtain ⟨genes', h⟩ := hm.2 ⟨L, hL, fun h => (find_eq_none_iff genes L).1 h hpres⟩
      exact ⟨_, genes', h⟩
  · constructor
    · rintro ⟨e, genes', hthrown⟩
      by_contra hnone
      have hpres : ∀ L ∈ keys parentGenes, find genes L ≠ none := by
        intro L hL h
        exact hnone ⟨L, hL, (find_eq_none_iff genes L).1 h⟩
      obtain ⟨g, hok, _⟩ := hf.1 hpres
      rw [hok] at hthrown
      cases hthrown
    · rintro ⟨L, hL, habs⟩
      obtain ⟨genes', h⟩ := hf.2 ⟨L, hL, (find_eq_none_iff genes L).2 habs⟩
      exact ⟨_, genes', h⟩

/-- C5 (amended) at a concrete input: the parent `parent3`, one breakpoint at 40, and an offspring
that holds locus 15 only; both roles throw. -/
theorem inheritDiploid_integrity_witness :
    ((∃ e genes', inheritDiploid true parent3 [40] 0 [(15, [none, none])]
        = .thrown e genes') ↔
      ∃ L ∈ keys parent3, L ∈ keys [(15, [none, none])]) ∧
    ((∃ e genes', inheritDiploid false parent3 [40] 0 [(15, [none, none])]
        = .thrown e genes') ↔
      ∃ L ∈ keys parent3, L ∉ keys [(15, [none, none])]) :=
  inheritDiploid_integrity parent3 [40] 0 [(15, [none, none])] (by simp [parent3])
    (by simp [parent3, keys, Ascending]) (by simp [parent3, Diploid]) (by simp [Ascending])
    (Or.inl rfl) ⟨40, by simp, by simp [parent3, keys]⟩ (by simp) (by simp [Diploid])

/-! ### C6 -/

/-- C6 (as stated, refuted): `offspring3` is filled by a maternal and then a paternal
inheritance; a further call in the father role returns normally and replaces slot 1 of
every locus. -/
theorem inheritGenes_father_again :
    (∃ g1, inheritGenes .inheritDiploid true parent3 [35] 0 [] = .ok g1 ∧
      inheritGenes .inheritDiploid false father3 [50] 1 g1 = .ok offspring3) ∧
    inheritGenes .inheritDiploid false parent3 [35] 1 offspring3 =
      .ok [(5, [some ⟨1, 1/10, 1/2⟩, some ⟨2, 2/10, 1/2⟩]),
           (15, [some ⟨3, 3/10, 1/2⟩, some ⟨4, 4/10, 1/2⟩]),
           (35, [some ⟨5, 5/10, 1/2⟩, some ⟨6, 6/10, 1/2⟩])] := by
  refine ⟨⟨[(5, [some ⟨1, 1/10, 1/2⟩, none]), (15, [some ⟨3, 3/10, 1/2⟩, none]),
    (35, [some ⟨5, 5/10, 1/2⟩, none])], ?_, ?_⟩, ?_⟩ <;>
    simp [inheritGenes, inheritDiploid, inheritLoop, advancePast, inheritLocus, index, find,
      insert, assign, parent3, father3, offspring3, FEM, MAL, toInt]

/-- C6 (amended): let a diploid offspring state hold every locus of a further non-empty
diploid parent (as it does once filled by a maternal and a paternal inheritance over that
locus set), let the starting copy be in `{0, 1}`, and let the breakpoint set consist of
positions below `2^31` and cover all parent loci. A further `inheritGenes` call in the
mother role throws the integrity error with the state unchanged.
A further call in the father role is not rejected: it returns normally, keeps the key set,
and at every parent locus replaces slot `MAL` by the parent allele of the parity rule,
leaving slot `FEM` and all other loci as they were. -/
theorem inheritGenes_again (parentGenes : Genes) (B : List Nat) (c : Int) (genes : Genes)
    (hne : parentGenes ≠ []) (hasc : Ascending (keys parentGenes))
    (hdip : Diploid parentGenes) (hB : Ascending B) (hc : c = 0 ∨ c = 1)
    (hcov : ∃ b ∈ B, ∀ L ∈ keys parentGenes, L ≤ b) (hrange : ∀ b ∈ B, b < 2147483648)
    (hoff : Diploid genes) (hfilled : ∀ L ∈ keys parentGenes, L ∈ keys genes) :
    inheritGenes .inheritDiploid true parentGenes B c genes
      = .thrown .motherLocusExists genes ∧
    ∃ genes', inheritGenes .inheritDiploid false parentGenes B c genes = .ok genes' ∧
      keys genes' = keys genes ∧
      (∀ L pair, (L, pair) ∈ parentGenes →
        ∃ a slots, index pair (copyAt c B L) = some a ∧
          find genes L = some slots ∧ find genes' L = some (slots.set MAL a)) ∧
      (∀ L, L ∉ keys parentGenes → find genes' L = find genes L) := by
  constructor
  · match parentGenes, hne with
    | (L0, pair0) :: rest, _ =>
      have h0 : find genes L0 ≠ none := by
        rw [Ne, find_eq_none_iff]
        exact fun h => h (hfilled L0 (by simp [keys]))
      obtain ⟨slots, hs⟩ := Option.ne_none_iff_exists'.1 h0
      exact inheritDiploid_mother_first L0 pair0 rest B c genes hasc hB hc hdip hcov hrange
        slots hs
  · have hpres : ∀ L ∈ keys parentGenes, find genes L ≠ none := by
      intro L hL h
      exact (find_eq_none_iff genes L).1 h (hfilled L hL)
    obtain ⟨genes', hok, hchar, hframe, hkeys⟩ :=
      (inheritDiploid_father parentGenes B c genes hne hasc hdip hB hc hcov hrange
        (diploid_find genes hoff)).1 hpres
    exact ⟨genes', hok, hkeys, hchar, hframe⟩

/-- C6 (amended) at a concrete input: a further inheritance from `parent3` into
`offspring3`. -/
theorem inheritGenes_again_witness :
    inheritGenes .inheritDiploid true parent3 [35] 1 offspring3
      = .thrown .motherLocusExists offspring3 ∧
    ∃ genes', inheritGenes .inheritDiploid false parent3 [35] 1 offspring3 = .ok genes' ∧
      keys genes' = keys offspring3 ∧
      (∀ L pair, (L, pair) ∈ parent3 →
        ∃ a slots, index pair (copyAt 1 [35] L) = some a ∧
          find offspring3 L = some slots ∧ find genes' L = some (slots.set MAL a)) ∧
      (∀ L, L ∉ keys parent3 → find genes' L = find offspring3 L) :=
  inheritGenes_again parent3 [35] 1 offspring3 (by simp [parent3])
    (by simp [parent3, keys, Ascending]) (by simp [parent3, Diploid]) (by simp [Ascending])
    (Or.inr rfl) ⟨35, by simp, by simp [parent3, keys]⟩ (by simp)
    (by simp [offspring3, Diploid]) (by simp [parent3, offspring3, keys])

/-! ## Lemmas on construction and expression -/

theorem insert_append_last (g : Genes) (L : Nat) (v : Slots) (h : ∀ k ∈ keys g, k < L) :
    insert g L v = g ++ [(L, v)] := by
  induction g with
  | nil => simp [insert]
  | cons p rest ih =>
    obtain ⟨k, w⟩ := p
    have hk : k < L := h k (by simp [keys])
    have h1 : ¬ L < k := by omega
    have h2 : ¬ L = k := by omega
    have hrest : ∀ k' ∈ keys rest, k' < L := fun k' hk' =>
      h k' (by simp only [keys, List.map_cons, List.mem_cons]; exact Or.inr hk')
    simp [insert, h1, h2, ih hrest]

theorem foldl_insert_ascending (positions : List Nat) (v : Slots) :
    ∀ (g : Genes), Ascending (keys g ++ positions) →
      positions.foldl (fun g position => insert g position v) g
        = g ++ positions.map (fun position => (position, v)) := by
  induction positions with
  | nil => intro g _; simp
  | cons x rest ih =>
    intro g hasc
    have hlt : ∀ k ∈ keys g, k < x := by
      intro k hk
      unfold Ascending at hasc
      exact (List.pairwise_append.1 hasc).2.2 k hk x (List.mem_cons_self _ _)
    simp only [List.foldl_cons, insert_append_last g x v hlt]
    rw [ih]
    · simp
    · simpa [keys] using hasc

/-- The result of `initialise` on an empty state: one entry per configured position, in order, each with
`ploidy` slots that hold the wild type. -/
theorem initialise_empty (P : SpeciesTrait) (hpos : Ascending P.genePositions) :
    initialise P [] =
      P.genePositions.map (fun position => (position, List.replicate P.ploidy (some wildType))) := by
  unfold initialise
  simpa using foldl_insert_ascending P.genePositions (List.replicate P.ploidy (some wildType)) []
    (by simpa [keys] using hpos)

theorem expressLoop_mul (ploidy : Nat) (genes : Genes) (factor : Nat × Slots → ℚ)
    (h : ∀ p ∈ genes, locusFactor ploidy p.2 = some (factor p)) :
    ∀ phenotype : ℚ,
      expressLoop ploidy genes phenotype = some (phenotype * (genes.map factor).prod) := by
  induction genes with
  | nil => intro phenotype; simp [expressLoop]
  | cons p rest ih =>
    intro phenotype
    obtain ⟨k, w⟩ := p
    have hp := h (k, w) (List.mem_cons_self _ _)
    simp only at hp
    rw [expressLoop]
    simp only [hp]
    rw [ih (fun q hq => h q (List.mem_cons_of_mem _ hq))]
    simp [mul_assoc]

/-- The parts of the initialisation property that hold for both ploidies, and the value of
`express` on a fresh diploid state. -/
theorem construct_fresh (P : SpeciesTrait) (t : Trait) (hpos : Ascending P.genePositions)
    (hok : GeneticFitnessTrait P = .ok t) :
    keys t.genes = P.genePositions ∧
    (∀ p ∈ t.genes, p.2 = List.replicate P.ploidy (some wildType)) ∧
    (P.ploidy = 2 → express P.ploidy t.genes = some 1) := by
  have hg : t.genes = initialise P [] := by
    unfold GeneticFitnessTrait at hok
    cases hm : checkMutation P with
    | error e => simp [hm] at hok
    | ok u =>
      cases hd : checkDominance P with
      | error e => simp [hm, hd] at hok
      | ok u' =>
        simp only [hm, hd, Except.ok.injEq] at hok
        rw [← hok]
  rw [hg, initialise_empty P hpos]
  refine ⟨by simp [keys, Function.comp_def], ?_, ?_⟩
  · intro p hp
    obtain ⟨x, _, hx⟩ := List.mem_map.1 hp
    rw [← hx]
  · intro h2
    unfold express
    rw [expressLoop_mul P.ploidy _ (fun _ => 1)]
    · simp [Function.comp_def]
    · intro p hp
      obtain ⟨x, _, hx⟩ := List.mem_map.1 hp
      rw [← hx, h2]
      simp [locusFactor, resolve, wildType, hLocus, List.replicate]

/-! ## Claims on construction and expression -/

/-! ### C7 -/

/-- C7 (at the failing input): for the haploid species `haploidSpecies` construction
succeeds and the fresh state is `{5 -> [wildType]}`, but `express` does not return 1.0: it
reads `pAllelePair[1]` of the one-slot vector, a read out of range, before it tests the
ploidy. -/
theorem express_fresh_haploid :
    ∃ t, GeneticFitnessTrait haploidSpecies = .ok t ∧
      t.genes = [(5, [some wildType])] ∧
      express haploidSpecies.ploidy t.genes = none := by
  refine ⟨{ pSpeciesTrait := haploidSpecies, genes := [(5, [some wildType])],
            inheritFuncPtr := .inheritHaploid }, ?_, rfl, ?_⟩
  · simp [GeneticFitnessTrait, checkMutation, checkDominance, count, haploidSpecies,
      uniformParams, initialise, insert]
  · simp [express, expressLoop, locusFactor]

/-! ### C8 -/

theorem checkMutation_error_iff (P : SpeciesTrait) :
    (∃ e, checkMutation P = .error e) ↔
      (P.mutationDistribution ∉
        [DistributionType.UNIFORM, DistributionType.NORMAL, DistributionType.GAMMA,
          DistributionType.NEGEXP] ∨
       ∃ p ∈ specRequired P.mutationDistribution, P.mutationParameters p = none) := by
  unfold checkMutation
  cases hm : P.mutationDistribution <;> simp only [specRequired, count] <;>
    (try split_ifs) <;> simp_all [Option.isSome_iff_ne_none]

theorem checkDominance_error_iff (P : SpeciesTrait) :
    (∃ e, checkDominance P = .error e) ↔
      (P.dominanceDistribution ∉
        [DistributionType.UNIFORM, DistributionType.NORMAL, DistributionType.GAMMA,
          DistributionType.NEGEXP, DistributionType.SCALED] ∨
       ∃ p ∈ specRequired P.dominanceDistribution, P.dominanceParameters p = none) := by
  unfold checkDominance
  cases hm : P.dominanceDistribution <;> simp only [specRequired, count] <;>
    (try split_ifs) <;> simp_all [Option.isSome_iff_ne_none]

/-- C8: construction validation. The constructor throws a configuration error if and only
if the mutation family is not one of UNIFORM, NORMAL, GAMMA, NEGEXP, or the dominance family
is not one of UNIFORM, NORMAL, GAMMA, NEGEXP, SCALED, or the parameter map of a chosen
family lacks one of its required parameters; in every other case it returns a trait. -/
theorem constructor_validation (P : SpeciesTrait) :
    ((∃ e, GeneticFitnessTrait P = .error e) ↔ specRejects P) ∧
    ((∃ t, GeneticFitnessTrait P = .ok t) ↔ ¬ specRejects P) := by
  have hm := checkMutation_error_iff P
  have hd := checkDominance_error_iff P
  have hrej : specRejects P ↔
      ((∃ e, checkMutation P = .error e) ∨ (∃ e, checkDominance P = .error e)) := by
    rw [hm, hd]
    unfold specRejects
    constructor
    · rintro (h | h | h | h)
      · exact Or.inl (Or.inl h)
      · exact Or.inr (Or.inl h)
      · exact Or.inl (Or.inr h)
      · exact Or.inr (Or.inr h)
    · rintro ((h | h) | (h | h))
      · exact Or.inl h
      · exact Or.inr (Or.inr (Or.inl h))
      · exact Or.inr (Or.inl h)
      · exact Or.inr (Or.inr (Or.inr h))
  rw [hrej]
  unfold GeneticFitnessTrait
  cases h1 : checkMutation P with
  | error e => simp
  | ok u =>
    cases h2 : checkDominance P with
    | error e => simp
    | ok u' => simp

/-! ### C9 -/

/-- C9: homozygous fitness. If every locus `L` of a diploid state carries, on both copies,
alleles with the same coefficients `(s L, h L)` (a null slot counting as the wild type),
then `express` returns the product over the loci of `1 - s L`, whatever the `h L`. For a
single locus with `(s, h) = (0.2, 0.5)` on both copies the locus weight is 0.5 and the
fitness is 0.8. Coefficients are exact rationals. -/
theorem express_homozygous (genes : Genes) (s h : Nat → ℚ)
    (hhom : ∀ p ∈ genes, ∃ a b, p.2 = [a, b] ∧
      (resolve a).alleleValue = s p.1 ∧ (resolve a).dominanceCoef = h p.1 ∧
      (resolve b).alleleValue = s p.1 ∧ (resolve b).dominanceCoef = h p.1) :
    express 2 genes = some ((genes.map (fun p => 1 - s p.1)).prod) ∧
    hLocus (1/2) (1/2) = 1/2 ∧
    ∀ (L id0 id1 : Nat),
      express 2 [(L, [some ⟨id0, 1/5, 1/2⟩, some ⟨id1, 1/5, 1/2⟩])] = some (4/5) := by
  refine ⟨?_, by norm_num [hLocus], ?_⟩
  · unfold express
    rw [expressLoop_mul 2 genes (fun p => 1 - s p.1)]
    · simp
    · intro p hp
      obtain ⟨a, b, hab, hsa, _, hsb, _⟩ := hhom p hp
      simp only [hab, locusFactor, List.getElem?_cons_zero, List.getElem?_cons_succ, if_true,
        hsa, hsb, Option.some.injEq]
      ring
  · intro L id0 id1
    norm_num [express, expressLoop, locusFactor, resolve, hLocus]

/-- C9 at a concrete input: the state `homozygous2`. -/
theorem express_homozygous_witness :
    express 2 homozygous2
      = some ((homozygous2.map
          (fun p => 1 - (fun L => if L = 5 then (1/5 : ℚ) else 1/2) p.1)).prod) :=
  (express_homozygous homozygous2 (fun L => if L = 5 then (1/5 : ℚ) else 1/2)
    (fun L => if L = 5 then (1/2 : ℚ) else 0)
    (by
      intro p hp
      simp only [homozygous2, List.mem_cons, List.mem_singleton, List.not_mem_nil,
        or_false] at hp
      rcases hp with rfl | rfl
      · exact ⟨_, _, rfl, by simp [resolve], by simp [resolve], by simp [resolve],
          by simp [resolve]⟩
      · exact ⟨_, _, rfl, by simp [resolve], by simp [resolve], by simp [resolve],
          by simp [resolve]⟩)).1

/-! ### C10 -/

/-- C10 (at the failing input): on a haploid state, whose loci hold one slot, `express` has
no defined result for any ploidy value as soon as there is a locus: the loop body reads
`pAllelePair[1]` before it tests `getPloidy() == 2`. -/
theorem express_haploid_out_of_range (ploidy L : Nat) (a : AllelePtr) (rest : Genes) :
    express ploidy ((L, [a]) :: rest) = none := by
  simp [express, expressLoop, locusFactor]

/-- The arithmetic that `express` performs for ploidy 1 once both reads succeed: the second
copy counts as `(0, 0)`, so a locus contributes `1 - hLocus * sA` with
`hLocus = hA / (hA + 0)`, that is `1 - sA` when `hA` is non-zero and `1` when `hA = 0`. -/
theorem express_ploidy_one (genes : Genes) (hslots : ∀ p ∈ genes, ∃ a b, p.2 = [a, b]) :
    express 1 genes = some ((genes.map (fun p =>
      1 - hLocus (resolve (p.2.headD none)).dominanceCoef 0
        * (resolve (p.2.headD none)).alleleValue)).prod) ∧
    ∀ sA hA : ℚ, 1 - hLocus hA 0 * sA = if hA = 0 then 1 else 1 - sA := by
  constructor
  · unfold express
    rw [expressLoop_mul 1 genes (fun p =>
      1 - hLocus (resolve (p.2.headD none)).dominanceCoef 0
        * (resolve (p.2.headD none)).alleleValue)]
    · simp
    · intro p hp
      obtain ⟨a, b, hab⟩ := hslots p hp
      simp [hab, locusFactor]
  · intro sA hA
    by_cases h0 : hA = 0
    · simp [hLocus, h0]
    · simp [hLocus, h0]

/-! ## Further lemmas on expression -/

theorem expressLoop_scale (ploidy : Nat) (genes : Genes) :
    ∀ phenotype : ℚ, expressLoop ploidy genes phenotype
      = (expressLoop ploidy genes 1).map (fun v => phenotype * v) := by
  induction genes with
  | nil => intro phenotype; simp [expressLoop]
  | cons q rest ih =>
    intro phenotype
    obtain ⟨L, slots⟩ := q
    rw [expressLoop, expressLoop]
    cases hf : locusFactor ploidy slots with
    | none => simp
    | some factor =>
      simp only
      rw [ih (phenotype * factor), ih (1 * factor)]
      cases expressLoop ploidy rest 1 with
      | none => simp
      | some v => simp [mul_assoc]

/-- A locus whose factor is `factor` multiplies the value of `express` by `factor`, wherever
it stands in the state. -/
theorem express_insert_locus (ploidy : Nat) (pre post : Genes) (L : Nat) (slots : Slots)
    (factor : ℚ) (hf : locusFactor ploidy slots = some factor) :
    express ploidy (pre ++ (L, slots) :: post)
      = (express ploidy (pre ++ post)).map (fun v => v * factor) := by
  unfold express
  induction pre with
  | nil =>
    simp only [List.nil_append]
    rw [expressLoop]
    simp only [hf]
    rw [expressLoop_scale]
    cases expressLoop ploidy post 1 with
    | none => simp
    | some v => simp [mul_comm]
  | cons q rest ih =>
    obtain ⟨L', slots'⟩ := q
    simp only [List.cons_append]
    rw [expressLoop, expressLoop]
    cases locusFactor ploidy slots' with
    | none => simp
    | some f' =>
      simp only
      rw [expressLoop_scale ploidy (rest ++ (L, slots) :: post),
        expressLoop_scale ploidy (rest ++ post), ih]
      cases expressLoop ploidy (rest ++ post) 1 with
      | none => simp
      | some v => simp [mul_assoc]

theorem hLocus_swap (hA hB : ℚ) (h : hA + hB ≠ 0) : hLocus hB hA = 1 - hLocus hA hB := by
  have h' : hB + hA ≠ 0 := by rwa [add_comm]
  simp only [hLocus, h, h', if_false]
  rw [add_comm hB hA, eq_sub_iff_add_eq, ← add_div, add_comm hB hA, div_self h]

theorem hLocus_bounds (hA hB : ℚ) (h0 : 0 ≤ hA) (h1 : 0 ≤ hB) :
    0 ≤ hLocus hA hB ∧ hLocus hA hB ≤ 1 := by
  unfold hLocus
  by_cases h : hA + hB = 0
  · simp [h]
  · simp only [h, if_false]
    have hpos : 0 < hA + hB := lt_of_le_of_ne (add_nonneg h0 h1) (Ne.symm h)
    constructor
    · exact div_nonneg h0 (le_of_lt hpos)
    · rw [div_le_one hpos]; linarith

theorem locusFactor_exchange (a b : AllelePtr)
    (h : (resolve a).dominanceCoef + (resolve b).dominanceCoef ≠ 0 ∨
      (resolve a).alleleValue = (resolve b).alleleValue) :
    locusFactor 2 [b, a] = locusFactor 2 [a, b] := by
  simp only [locusFactor, List.getElem?_cons_zero, List.getElem?_cons_succ, if_true,
    Option.some.injEq]
  rcases h with h | h
  · rw [hLocus_swap _ _ h]; ring
  · rw [h]; ring

theorem prod_unit_interval (l : List ℚ) (h : ∀ x ∈ l, 0 ≤ x ∧ x ≤ 1) :
    0 ≤ l.prod ∧ l.prod ≤ 1 := by
  induction l with
  | nil => simp
  | cons x rest ih =>
    have hx := h x (List.mem_cons_self _ _)
    have hr := ih (fun y hy => h y (List.mem_cons_of_mem _ hy))
    rw [List.prod_cons]
    constructor
    · exact mul_nonneg hx.1 hr.1
    · calc x * rest.prod ≤ 1 * 1 := mul_le_mul hx.2 hr.2 hr.1 (by norm_num)
        _ = 1 := by norm_num

/-! ## Claims on expression, continued -/

/-! ### C16 -/

/-- C16 (as stated, refuted): all dominance coefficients of `recessiveLocus` are
non-negative (both are zero), yet exchanging the maternal and the paternal allele changes
`express` from 1/2 to 1: when the two dominance coefficients sum to zero the code sets
`hLocus = 0` and the locus takes the selection coefficient of the paternal copy alone. -/
theorem express_exchange_both_recessive :
    (∀ q ∈ recessiveLocus, ∀ p ∈ q.2, 0 ≤ (resolve p).dominanceCoef) ∧
    express 2 recessiveLocus = some (1/2) ∧
    express 2 (exchangeParents recessiveLocus) = some 1 := by
  refine ⟨?_, ?_, ?_⟩
  · simp [recessiveLocus, resolve, wildType]
  · norm_num [express, expressLoop, locusFactor, recessiveLocus, resolve, wildType, hLocus]
  · norm_num [express, expressLoop, locusFactor, recessiveLocus, resolve, wildType, hLocus,
      exchangeParents, exchangeSlots]

/-- C16 (amended): for every diploid state in which all dominance coefficients are
non-negative and, at every locus, the two dominance coefficients are not both zero or the
two selection coefficients are equal, exchanging the maternal and the paternal allele at
every locus leaves `express` unchanged. Coefficients are exact rationals. -/
theorem express_exchange (genes : Genes)
    (h : ∀ q ∈ genes, ∃ a b, q.2 = [a, b] ∧
      0 ≤ (resolve a).dominanceCoef ∧ 0 ≤ (resolve b).dominanceCoef ∧
      ((resolve a).dominanceCoef ≠ 0 ∨ (resolve b).dominanceCoef ≠ 0 ∨
        (resolve a).alleleValue = (resolve b).alleleValue)) :
    express 2 (exchangeParents genes) = express 2 genes := by
  have hloc : ∀ q ∈ genes, locusFactor 2 (exchangeSlots q.2) = locusFactor 2 q.2 ∧
      ∃ f, locusFactor 2 q.2 = some f := by
    intro q hq
    obtain ⟨a, b, hab, ha, hb, hcase⟩ := h q hq
    rw [hab]
    refine ⟨?_, by simp [locusFactor]⟩
    show locusFactor 2 [b, a] = locusFactor 2 [a, b]
    apply locusFactor_exchange
    rcases hcase with h1 | h1 | h1
    · left
      have : 0 < (resolve a).dominanceCoef := lt_of_le_of_ne ha (Ne.symm h1)
      linarith
    · left
      have : 0 < (resolve b).dominanceCoef := lt_of_le_of_ne hb (Ne.symm h1)
      linarith
    · right; exact h1
  have hmap : (exchangeParents genes).map (fun q => (locusFactor 2 q.2).getD 1)
      = genes.map (fun q => (locusFactor 2 q.2).getD 1) := by
    unfold exchangeParents
    rw [List.map_map]
    apply List.map_congr_left
    intro q hq
    simp only [Function.comp]
    rw [(hloc q hq).1]
  unfold express
  rw [expressLoop_mul 2 genes (fun q => (locusFactor 2 q.2).getD 1),
    expressLoop_mul 2 (exchangeParents genes) (fun q => (locusFactor 2 q.2).getD 1)]
  · rw [hmap]
  · intro q hq
    unfold exchangeParents at hq
    obtain ⟨q0, hq0, hqe⟩ := List.mem_map.1 hq
    obtain ⟨f, hf⟩ := (hloc q0 hq0).2
    rw [← hqe]
    simp only
    rw [(hloc q0 hq0).1, hf]
    rfl
  · intro q hq
    obtain ⟨f, hf⟩ := (hloc q hq).2
    rw [hf]
    rfl

/-- C16 (amended) at a concrete input: the state `offspring3`. -/
theorem express_exchange_witness :
    express 2 (exchangeParents offspring3) = express 2 offspring3 :=
  express_exchange offspring3 (by
    intro q hq
    simp only [offspring3, List.mem_cons, List.mem_singleton, List.not_mem_nil,
      or_false] at hq
    rcases hq with rfl | rfl | rfl
    · exact ⟨_, _, rfl, by norm_num [resolve], by norm_num [resolve],
        Or.inl (by norm_num [resolve])⟩
    · exact ⟨_, _, rfl, by norm_num [resolve], by norm_num [resolve],
        Or.inl (by norm_num [resolve])⟩
    · exact ⟨_, _, rfl, by norm_num [resolve], by norm_num [resolve],
        Or.inl (by norm_num [resolve])⟩)

/-! ### C17 -/

/-- C17: fitness is a viability probability. For every diploid state in which every allele
(a null slot counting as the wild type) has a selection coefficient in `[0, 1]` and a
dominance coefficient `>= 0`, the weight `hLocus` of every locus lies in `[0, 1]`, and
`express` returns a value in `[0, 1]`. Coefficients are exact rationals. -/
theorem express_viability (genes : Genes)
    (h : ∀ q ∈ genes, ∃ a b, q.2 = [a, b] ∧
      0 ≤ (resolve a).alleleValue ∧ (resolve a).alleleValue ≤ 1 ∧
      0 ≤ (resolve a).dominanceCoef ∧
      0 ≤ (resolve b).alleleValue ∧ (resolve b).alleleValue ≤ 1 ∧
      0 ≤ (resolve b).dominanceCoef) :
    (∀ q ∈ genes, ∀ a b, q.2 = [a, b] →
      0 ≤ hLocus (resolve a).dominanceCoef (resolve b).dominanceCoef ∧
      hLocus (resolve a).dominanceCoef (resolve b).dominanceCoef ≤ 1) ∧
    ∃ v, express 2 genes = some v ∧ 0 ≤ v ∧ v ≤ 1 := by
  constructor
  · intro q hq a b hab
    obtain ⟨a', b', hab', _, _, ha, _, _, hb⟩ := h q hq
    rw [hab] at hab'
    simp only [List.cons.injEq, and_true] at hab'
    obtain ⟨rfl, rfl⟩ := hab'
    exact hLocus_bounds _ _ ha hb
  · have hloc : ∀ q ∈ genes, ∃ f, locusFactor 2 q.2 = some f ∧ 0 ≤ f ∧ f ≤ 1 := by
      intro q hq
      obtain ⟨a, b, hab, hsa0, hsa1, ha, hsb0, hsb1, hb⟩ := h q hq
      obtain ⟨hw0, hw1⟩ := hLocus_bounds _ _ ha hb
      refine ⟨1 - hLocus (resolve a).dominanceCoef (resolve b).dominanceCoef
          * (resolve a).alleleValue
        - (1 - hLocus (resolve a).dominanceCoef (resolve b).dominanceCoef)
          * (resolve b).alleleValue,
        by rw [hab]; simp only [locusFactor, List.getElem?_cons_zero,
          List.getElem?_cons_succ, if_true], ?_, ?_⟩
      · nlinarith [mul_nonneg hw0 (sub_nonneg.2 hsa1),
          mul_nonneg (sub_nonneg.2 hw1) (sub_nonneg.2 hsb1)]
      · nlinarith [mul_nonneg hw0 hsa0, mul_nonneg (sub_nonneg.2 hw1) hsb0]
    refine ⟨(genes.map (fun q => (locusFactor 2 q.2).getD 1)).prod, ?_, ?_⟩
    · unfold express
      rw [expressLoop_mul 2 genes (fun q => (locusFactor 2 q.2).getD 1)]
      · simp
      · intro q hq
        obtain ⟨f, hf, _⟩ := hloc q hq
        rw [hf]; rfl
    · apply prod_unit_interval
      intro x hx
      obtain ⟨q, hq, hqx⟩ := List.mem_map.1 hx
      obtain ⟨f, hf, h0, h1⟩ := hloc q hq
      rw [← hqx, hf]
      exact ⟨h0, h1⟩

/-- C17 at a concrete input: the state `offspring3`. -/
theorem express_viability_witness :
    (∀ q ∈ offspring3, ∀ a b, q.2 = [a, b] →
      0 ≤ hLocus (resolve a).dominanceCoef (resolve b).dominanceCoef ∧
      hLocus (resolve a).dominanceCoef (resolve b).dominanceCoef ≤ 1) ∧
    ∃ v, express 2 offspring3 = some v ∧ 0 ≤ v ∧ v ≤ 1 :=
  express_viability offspring3 (by
    intro q hq
    simp only [offspring3, List.mem_cons, List.mem_singleton, List.not_mem_nil,
      or_false] at hq
    rcases hq with rfl | rfl | rfl
    · exact ⟨_, _, rfl, by norm_num [resolve], by norm_num [resolve], by norm_num [resolve],
        by norm_num [resolve], by norm_num [resolve], by norm_num [resolve]⟩
    · exact ⟨_, _, rfl, by norm_num [resolve], by norm_num [resolve], by norm_num [resolve],
        by norm_num [resolve], by norm_num [resolve], by norm_num [resolve]⟩
    · exact ⟨_, _, rfl, by norm_num [resolve], by norm_num [resolve], by norm_num [resolve],
        by norm_num [resolve], by norm_num [resolve], by norm_num [resolve]⟩)

/-! ### C19 -/

/-- C19 (at the failing input): slot indexing in `express` is not in bounds for a haploid
state. Whatever the ploidy, a locus that holds one slot makes `express` read
`pAllelePair[1]`, index 1 of a vector of size 1, wherever the locus stands in the state; in
particular on the state that `initialise` builds for a haploid species with one position. -/
theorem express_reads_slot_one (ploidy : Nat) (pre post : Genes) (L : Nat) (a : AllelePtr) :
    express ploidy (pre ++ (L, [a]) :: post) = none ∧
    express 1 (initialise { haploidSpecies with genePositions := [L] } []) = none := by
  constructor
  · unfold express
    generalize (1 : ℚ) = phenotype
    induction pre generalizing phenotype with
    | nil => simp [expressLoop, locusFactor]
    | cons q rest ih =>
      obtain ⟨L', slots'⟩ := q
      simp only [List.cons_append]
      rw [expressLoop]
      cases locusFactor ploidy slots' with
      | none => rfl
      | some f => exact ih _
  · simp [express, expressLoop, locusFactor, initialise, insert, haploidSpecies]

/-! ### C20 -/

/-- C20: dominance is inert against the wild type. With the wild-type sentinel `(0, 0)`, a
diploid locus that holds the wild type (the sentinel or a null slot) on one copy and a
mutant allele `(s, h)` with `h > 0` on the other has the factor `1 - s`, for every such `h`
and for either copy carrying the mutant; wherever such a locus stands in a state, it
multiplies the value of `express` by `1 - s`. Coefficients are exact rationals. -/
theorem express_wild_type_inert (s h : ℚ) (id : Nat) (w : AllelePtr)
    (hw : resolve w = wildType) (hpos : 0 < h) :
    locusFactor 2 [some ⟨id, s, h⟩, w] = some (1 - s) ∧
    locusFactor 2 [w, some ⟨id, s, h⟩] = some (1 - s) ∧
    ∀ (pre post : Genes) (L : Nat),
      express 2 (pre ++ (L, [some ⟨id, s, h⟩, w]) :: post)
        = (express 2 (pre ++ post)).map (fun v => v * (1 - s)) ∧
      express 2 (pre ++ (L, [w, some ⟨id, s, h⟩]) :: post)
        = (express 2 (pre ++ post)).map (fun v => v * (1 - s)) := by
  have hne : h ≠ 0 := ne_of_gt hpos
  have hm : resolve (some ⟨id, s, h⟩) = ⟨id, s, h⟩ := rfl
  have h1 : locusFactor 2 [some ⟨id, s, h⟩, w] = some (1 - s) := by
    simp only [locusFactor, List.getElem?_cons_zero, List.getElem?_cons_succ, if_true, hw, hm]
    simp [wildType, hLocus, hne]
  have h2 : locusFactor 2 [w, some ⟨id, s, h⟩] = some (1 - s) := by
    simp only [locusFactor, List.getElem?_cons_zero, List.getElem?_cons_succ, if_true, hw, hm]
    simp [wildType, hLocus, hne]
  exact ⟨h1, h2, fun pre post L =>
    ⟨express_insert_locus 2 pre post L _ _ h1, express_insert_locus 2 pre post L _ _ h2⟩⟩

/-- C20 at a concrete input: a mutant `(1/5, 3)` against a null slot. -/
theorem express_wild_type_inert_witness :
    locusFactor 2 [some ⟨1, 1/5, 3⟩, none] = some (1 - 1/5) ∧
    locusFactor 2 [none, some ⟨1, 1/5, 3⟩] = some (1 - 1/5) ∧
    ∀ (pre post : Genes) (L : Nat),
      express 2 (pre ++ (L, [some ⟨1, 1/5, 3⟩, none]) :: post)
        = (express 2 (pre ++ post)).map (fun v => v * (1 - 1/5)) ∧
      express 2 (pre ++ (L, [none, some ⟨1, 1/5, 3⟩]) :: post)
        = (express 2 (pre ++ post)).map (fun v => v * (1 - 1/5)) :=
  express_wild_type_inert (1/5) 3 1 none rfl (by norm_num)

/-! ## Claims on the queries -/

/-! ### C12 -/

/-- C12: missing-locus queries fail. For every state, copy index and position,
`getAlleleValueAtLocus` and `isHeterozygoteAtLocus` throw their not-found error if and only
if the position is not a key of the state; when the position is present and the slot
exists, `getAlleleValueAtLocus` returns the selection coefficient of the allele in that
slot, a null slot being read as the wild type. -/
theorem query_missing_locus (genes : Genes) (whichChromosome : Int) (position : Nat) :
    (getAlleleValueAtLocus genes whichChromosome position = .thrown .alleleValueLocusMissing
      ↔ position ∉ keys genes) ∧
    (isHeterozygoteAtLocus genes position = .thrown .heterozygosityLocusMissing
      ↔ position ∉ keys genes) ∧
    (∀ slots p, find genes position = some slots → index slots whichChromosome = some p →
      getAlleleValueAtLocus genes whichChromosome position
        = .ok (match p with
               | none => wildType.alleleValue
               | some a => a.alleleValue)) := by
  refine ⟨?_, ?_, ?_⟩
  · rw [← find_eq_none_iff]
    unfold getAlleleValueAtLocus
    cases find genes position with
    | none => simp
    | some slots =>
      cases hi : index slots whichChromosome <;> simp [hi]
  · rw [← find_eq_none_iff]
    unfold isHeterozygoteAtLocus
    cases find genes position with
    | none => simp
    | some slots =>
      cases h0 : slots[0]? <;> cases h1 : slots[1]? <;> simp [h0, h1]
  · intro slots p hf hi
    unfold getAlleleValueAtLocus
    simp only [hf, hi]
    cases p <;> rfl

/-- C12 at a concrete input: copy 1 of locus 15 of `offspring3`, and the absent locus 16. -/
theorem query_missing_locus_witness :
    getAlleleValueAtLocus offspring3 1 15 = .ok (1/3) ∧
    getAlleleValueAtLocus offspring3 1 16 = .thrown .alleleValueLocusMissing ∧
    isHeterozygoteAtLocus offspring3 16 = .thrown .heterozygosityLocusMissing :=
  ⟨(query_missing_locus offspring3 1 15).2.2 [some ⟨3, 3/10, 1/2⟩, some ⟨9, 1/3, 1/5⟩]
      (some ⟨9, 1/3, 1/5⟩) (by simp [find, offspring3]) (by simp [index]),
    (query_missing_locus offspring3 1 16).1.2 (by simp [keys, offspring3]),
    (query_missing_locus offspring3 1 16).2.1.2 (by simp [keys, offspring3])⟩

/-! ### C13 -/

theorem countHeterozygoteLoop_eq (genes : Genes) (h : ∀ q ∈ genes, ∃ a b, q.2 = [a, b]) :
    ∀ count : Int, countHeterozygoteLoop genes count
      = .ok (count + (genes.map (fun q =>
          if ptrNe (resolve (q.2.getD 0 none)) (resolve (q.2.getD 1 none)) then (1 : Int)
          else 0)).sum) := by
  induction genes with
  | nil => intro count; simp [countHeterozygoteLoop]
  | cons q rest ih =>
    intro count
    obtain ⟨L, slots⟩ := q
    obtain ⟨a, b, hab⟩ := h (L, slots) (List.mem_cons_self _ _)
    simp only at hab
    subst hab
    rw [countHeterozygoteLoop]
    simp only [List.getElem?_cons_zero, List.getElem?_cons_succ]
    rw [ih (fun q hq => h q (List.mem_cons_of_mem _ hq))]
    simp [add_assoc]

/-- C13: heterozygosity compares identity, not value. For a diploid locus present in the
state, `isHeterozygoteAtLocus` returns true exactly when the two slots, a null slot being
replaced by the wild-type sentinel, refer to different allele objects. So two distinct
objects with identical `(s, h)` are heterozygous (as are the two alleles that `mutate`
creates from equal draws on the two copies of one locus), a null slot and the sentinel are
homozygous, and `countHeterozygoteLoci` adds up the same comparison over the loci of a
diploid state. -/
theorem heterozygote_identity (genes : Genes) (L : Nat) (a b : AllelePtr)
    (hfind : find genes L = some [a, b]) :
    (∃ r, isHeterozygoteAtLocus genes L = .ok r ∧
      (r = true ↔ (resolve a).id ≠ (resolve b).id)) ∧
    (∀ (id0 id1 : Nat) (s h : ℚ), id0 ≠ id1 →
      isHeterozygoteAtLocus [(L, [some ⟨id0, s, h⟩, some ⟨id1, s, h⟩])] L = .ok true) ∧
    isHeterozygoteAtLocus [(L, [none, some wildType])] L = .ok false ∧
    isHeterozygoteAtLocus [(L, [some wildType, none])] L = .ok false ∧
    (∃ genes' rnd' nextId',
      mutate diploidSpecies [(5, [some wildType, some wildType])]
        ⟨[1, 1], [[5], [5]], [1/2, 1/4, 1/2, 1/4]⟩ 1 = .ok genes' rnd' nextId' ∧
      find genes' 5 = some [some ⟨1, 1/2, 1/4⟩, some ⟨2, 1/2, 1/4⟩] ∧
      isHeterozygoteAtLocus genes' 5 = .ok true) ∧
    ((∀ q ∈ genes, ∃ a b, q.2 = [a, b]) →
      countHeterozygoteLoci genes = .ok ((genes.map (fun q =>
        if (resolve (q.2.getD 0 none)).id ≠ (resolve (q.2.getD 1 none)).id then (1 : Int)
        else 0)).sum)) := by
  refine ⟨?_, ?_, ?_, ?_, ?_, ?_⟩
  · refine ⟨ptrNe (resolve a) (resolve b), ?_, by simp [ptrNe]⟩
    simp [isHeterozygoteAtLocus, hfind]
  · intro id0 id1 s h hne
    simp [isHeterozygoteAtLocus, find, ptrNe, resolve, hne]
  · simp [isHeterozygoteAtLocus, find, ptrNe, resolve]
  · simp [isHeterozygoteAtLocus, find, ptrNe, resolve]
  · refine ⟨[(5, [some ⟨1, 1/2, 1/4⟩, some ⟨2, 1/2, 1/4⟩])], ⟨[], [], []⟩, 3, ?_, ?_, ?_⟩
    · norm_num [mutate, mutatePasses, mutatePass, mutatePositions, mutateLocus, doWhile,
        drawSelectionCoef, drawDominance, FRandom, Binomial, sample, find, assign,
        diploidSpecies, uniformParams]
    · simp [find]
    · simp [isHeterozygoteAtLocus, find, ptrNe, resolve]
  · intro hdip
    unfold countHeterozygoteLoci
    rw [countHeterozygoteLoop_eq genes hdip 0]
    simp [ptrNe]

/-- C13 at a concrete input: locus 5 of `homozygous2` holds two distinct objects with equal
coefficients, locus 7 one shared object. -/
theorem heterozygote_identity_witness :
    isHeterozygoteAtLocus homozygous2 5 = .ok true ∧
    isHeterozygoteAtLocus homozygous2 7 = .ok false ∧
    countHeterozygoteLoci homozygous2 = .ok 1 := by
  obtain ⟨⟨r5, h5, hr5⟩, _, _, _, _, hcount⟩ :=
    heterozygote_identity homozygous2 5 (some ⟨1, 1/5, 1/2⟩) (some ⟨2, 1/5, 1/2⟩)
      (by simp [find, homozygous2])
  obtain ⟨⟨r7, h7, hr7⟩, _⟩ :=
    heterozygote_identity homozygous2 7 (some ⟨3, 1/2, 0⟩) (some ⟨3, 1/2, 0⟩)
      (by simp [find, homozygous2])
  refine ⟨?_, ?_, ?_⟩
  · rw [h5, hr5.2 (by simp [resolve])]
  · rw [h7]
    have : r7 = false := by
      cases r7
      · rfl
      · exact absurd (hr7.1 rfl) (by simp [resolve])
    rw [this]
  · rw [hcount (by simp [homozygous2])]
    simp [homozygous2, resolve]

/-! ## Lemmas on the draws -/

theorem sameCounts_refl (rnd : Draws) : SameCounts rnd rnd := ⟨rfl, rfl⟩

theorem sameCounts_trans {r1 r2 r3 : Draws} (h12 : SameCounts r1 r2) (h23 : SameCounts r2 r3) :
    SameCounts r1 r3 :=
  ⟨h23.1.trans h12.1, h23.2.trans h12.2⟩

theorem FRandom_ok (rnd : Draws) (x : ℚ) (rnd' : Draws) (h : FRandom rnd = .ok x rnd') :
    rnd.realOutcomes = x :: rnd'.realOutcomes ∧ SameCounts rnd rnd' := by
  unfold FRandom at h
  cases hr : rnd.realOutcomes with
  | nil => simp [hr] at h
  | cons y rest =>
    simp only [hr, DrawResult.ok.injEq] at h
    obtain ⟨rfl, rfl⟩ := h
    exact ⟨rfl, rfl, rfl⟩

theorem redraw_ok (again : ℚ → Bool) (rnd : Draws) (l : List ℚ) (x : ℚ) (rnd' : Draws)
    (h : redraw again rnd l = .ok x rnd') :
    again x = false ∧ SameCounts rnd rnd' ∧
      ∃ rejected, l = rejected ++ x :: rnd'.realOutcomes ∧ ∀ r ∈ rejected, again r = true := by
  induction l with
  | nil => simp [redraw] at h
  | cons y rest ih =>
    rw [redraw] at h
    by_cases hy : again y = true
    · simp only [hy, if_true] at h
      obtain ⟨h1, h2, rejected, h3, h4⟩ := ih h
      refine ⟨h1, h2, y :: rejected, by simp [h3], ?_⟩
      intro r hr
      rcases List.mem_cons.1 hr with e | e
      · rw [e]; exact hy
      · exact h4 r e
    · simp only [hy, DrawResult.ok.injEq] at h
      obtain ⟨rfl, rfl⟩ := h
      exact ⟨by simpa using hy, ⟨rfl, rfl⟩, [], rfl, by simp⟩

theorem doWhile_ok (body : Draws → DrawResult) (again : ℚ → Bool)
    (hbody : ∀ rnd x rnd', body rnd = .ok x rnd' → SameCounts rnd rnd') :
    ∀ (fuel : Nat) (rnd : Draws) (x : ℚ) (rnd' : Draws),
      doWhile body again fuel rnd = .ok x rnd' → again x = false ∧ SameCounts rnd rnd' := by
  intro fuel
  induction fuel with
  | zero => intro rnd x rnd' h; simp [doWhile] at h
  | succ fuel ih =>
    intro rnd x rnd' h
    rw [doWhile] at h
    cases hb : body rnd with
    | ok y rnd1 =>
      simp only [hb] at h
      by_cases hy : again y = true
      · simp only [hy, if_true] at h
        obtain ⟨h1, h2⟩ := ih rnd1 x rnd' h
        exact ⟨h1, sameCounts_trans (hbody rnd y rnd1 hb) h2⟩
      · simp only [hy, DrawResult.ok.injEq] at h
        obtain ⟨rfl, rfl⟩ := h
        exact ⟨by simpa using hy, hbody _ _ _ hb⟩
    | logicError => simp [hb] at h
    | undefinedBehaviour => simp [hb] at h
    | pending => simp [hb] at h

theorem drawSelectionCoef_counts (P : SpeciesTrait) (rnd : Draws) (x : ℚ) (rnd' : Draws)
    (h : drawSelectionCoef P rnd = .ok x rnd') : SameCounts rnd rnd' := by
  unfold drawSelectionCoef at h
  cases hm : P.mutationDistribution <;> simp only [hm] at h
  · cases h1 : P.mutationParameters .MAX <;> cases h2 : P.mutationParameters .MIN <;>
      simp only [h1, h2] at h <;> first | cases h | exact (FRandom_ok _ _ _ h).2
  · cases h1 : P.mutationParameters .MEAN <;> cases h2 : P.mutationParameters .SD <;>
      simp only [h1, h2] at h <;> first | cases h | exact (redraw_ok _ _ _ _ _ h).2.1
  · cases h1 : P.mutationParameters .SHAPE <;> cases h2 : P.mutationParameters .SCALE <;>
      simp only [h1, h2] at h <;> first | cases h | exact (redraw_ok _ _ _ _ _ h).2.1
  · cases h1 : P.mutationParameters .MEAN <;>
      simp only [h1] at h <;> first | cases h | exact (redraw_ok _ _ _ _ _ h).2.1
  · cases h
  · cases h

theorem drawDominance_counts (P : SpeciesTrait) (selCoef : ℚ) (rnd : Draws) (x : ℚ)
    (rnd' : Draws) (h : drawDominance P selCoef rnd = .ok x rnd') : SameCounts rnd rnd' := by
  unfold drawDominance at h
  cases hm : P.dominanceDistribution <;> simp only [hm] at h
  · cases h1 : P.dominanceParameters .MAX <;> cases h2 : P.dominanceParameters .MIN <;>
      simp only [h1, h2] at h <;> first | cases h | exact (FRandom_ok _ _ _ h).2
  · cases h1 : P.dominanceParameters .MEAN <;> cases h2 : P.dominanceParameters .SD <;>
      simp only [h1, h2] at h <;> first | cases h | exact (redraw_ok _ _ _ _ _ h).2.1
  · cases h1 : P.dominanceParameters .SHAPE <;> cases h2 : P.dominanceParameters .SCALE <;>
      simp only [h1, h2] at h <;> first | cases h | exact (FRandom_ok _ _ _ h).2
  · cases h1 : P.dominanceParameters .MEAN <;>
      simp only [h1] at h <;> first | cases h | exact (FRandom_ok _ _ _ h).2
  · exact (FRandom_ok _ _ _ h).2
  · cases h

theorem mutatedFrom_refl (P : SpeciesTrait) (allowed : Nat → Nat → Prop) (genes : Genes) :
    MutatedFrom P allowed genes genes :=
  ⟨rfl, fun _ slots hf => ⟨slots, hf, rfl, fun _ => Or.inl rfl⟩⟩

theorem mutatedFrom_trans {P : SpeciesTrait} {allowed : Nat → Nat → Prop} {g0 g1 g2 : Genes}
    (h01 : MutatedFrom P allowed g0 g1) (h12 : MutatedFrom P allowed g1 g2) :
    MutatedFrom P allowed g0 g2 := by
  refine ⟨h12.1.trans h01.1, ?_⟩
  intro L slots hf
  obtain ⟨slots1, hf1, hlen1, hs1⟩ := h01.2 L slots hf
  obtain ⟨slots2, hf2, hlen2, hs2⟩ := h12.2 L slots1 hf1
  refine ⟨slots2, hf2, hlen2.trans hlen1, ?_⟩
  intro i
  rcases hs2 i with e2 | hnew
  · rcases hs1 i with e1 | ⟨hal, a, ha, hacc⟩
    · exact Or.inl (e2.trans e1)
    · exact Or.inr ⟨hal, a, e2.trans ha, hacc⟩
  · exact Or.inr hnew

theorem mutatedFrom_mono {P : SpeciesTrait} {allowed allowed' : Nat → Nat → Prop}
    {g0 g1 : Genes} (h : MutatedFrom P allowed g0 g1)
    (himp : ∀ i L, allowed i L → allowed' i L) : MutatedFrom P allowed' g0 g1 := by
  refine ⟨h.1, ?_⟩
  intro L slots hf
  obtain ⟨slots1, hf1, hlen1, hs1⟩ := h.2 L slots hf
  refine ⟨slots1, hf1, hlen1, ?_⟩
  intro i
  rcases hs1 i with e1 | ⟨hal, hnew⟩
  · exact Or.inl e1
  · exact Or.inr ⟨himp i L hal, hnew⟩

/-- What `mutateLocus` does when it returns: it rewrites slot `p` of locus `m` with a new
allele object whose coefficients passed the two rejection loops. -/
theorem mutateLocus_ok (P : SpeciesTrait) (p m : Nat) (genes : Genes) (rnd : Draws)
    (nextId : Nat) (genes' : Genes) (rnd' : Draws) (nextId' : Nat)
    (h : mutateLocus P p m genes rnd nextId = .ok genes' rnd' nextId') :
    SameCounts rnd rnd' ∧
    ∃ slots s d, find genes m = some slots ∧ p < slots.length ∧
      P.isValidTraitVal s = true ∧ 0 ≤ d ∧
      genes' = assign genes m (slots.set p (some ⟨nextId, s, d⟩)) := by
  unfold mutateLocus at h
  cases hf : find genes m with
  | none => simp [hf] at h
  | some slots =>
    simp only [hf] at h
    cases hs : doWhile (drawSelectionCoef P) (fun s => !P.isValidTraitVal s)
        (rnd.realOutcomes.length + 1) rnd with
    | ok s rnd1 =>
      simp only [hs] at h
      cases hd : doWhile (drawDominance P s) (fun h => decide (h < 0))
          (rnd1.realOutcomes.length + 1) rnd1 with
      | ok d rnd2 =>
        simp only [hd] at h
        by_cases hp : p < slots.length
        · simp only [hp, if_true, MutateResult.ok.injEq] at h
          obtain ⟨hg, hr, _⟩ := h
          obtain ⟨hs1, hs2⟩ := doWhile_ok _ _ (drawSelectionCoef_counts P) _ _ _ _ hs
          obtain ⟨hd1, hd2⟩ := doWhile_ok _ _ (drawDominance_counts P s) _ _ _ _ hd
          refine ⟨?_, slots, s, d, rfl, hp, by simpa using hs1, by simpa using hd1, hg.symm⟩
          rw [← hr]
          exact sameCounts_trans hs2 hd2
        · simp [hp] at h
      | logicError => simp [hd] at h
      | undefinedBehaviour => simp [hd] at h
      | pending => simp [hd] at h
    | logicError => simp [hs] at h
    | undefinedBehaviour => simp [hs] at h
    | pending => simp [hs] at h

theorem mutateLocus_mutatedFrom (P : SpeciesTrait) (p m : Nat) (genes : Genes) (rnd : Draws)
    (nextId : Nat) (genes' : Genes) (rnd' : Draws) (nextId' : Nat)
    (h : mutateLocus P p m genes rnd nextId = .ok genes' rnd' nextId') :
    MutatedFrom P (fun i L => i = p ∧ L = m) genes genes' ∧ SameCounts rnd rnd' := by
  obtain ⟨hc, slots, s, d, hf, hp, hs, hd, hg⟩ := mutateLocus_ok P p m genes rnd nextId _ _ _ h
  refine ⟨⟨by rw [hg, keys_assign], ?_⟩, hc⟩
  intro L slotsL hfL
  rw [hg, find_assign]
  by_cases hL : L = m
  · subst hL
    rw [hf] at hfL
    cases hfL
    refine ⟨slots.set p (some ⟨nextId, s, d⟩), by simp [hf], by simp, ?_⟩
    intro i
    by_cases hi : i = p
    · subst hi
      exact Or.inr ⟨⟨rfl, rfl⟩, ⟨nextId, s, d⟩, by simp [hp], hs, hd⟩
    · left
      rw [List.getElem?_set_ne (fun e => hi e.symm)]
  · exact ⟨slotsL, by simp [hL, hfL], rfl, fun _ => Or.inl rfl⟩

theorem mutatePositions_mutatedFrom (P : SpeciesTrait) (p : Nat) (positions : List Nat) :
    ∀ (genes : Genes) (rnd : Draws) (nextId : Nat) (genes' : Genes) (rnd' : Draws)
      (nextId' : Nat),
      mutatePositions P p positions genes rnd nextId = .ok genes' rnd' nextId' →
      MutatedFrom P (fun i L => i = p ∧ L ∈ positions) genes genes' ∧ SameCounts rnd rnd' := by
  induction positions with
  | nil =>
    intro genes rnd nextId genes' rnd' nextId' h
    simp only [mutatePositions, MutateResult.ok.injEq] at h
    obtain ⟨rfl, rfl, _⟩ := h
    exact ⟨mutatedFrom_refl _ _ _, sameCounts_refl _⟩
  | cons m rest ih =>
    intro genes rnd nextId genes' rnd' nextId' h
    rw [mutatePositions] at h
    cases hl : mutateLocus P p m genes rnd nextId with
    | ok g1 r1 n1 =>
      simp only [hl] at h
      obtain ⟨hm1, hc1⟩ := mutateLocus_mutatedFrom P p m genes rnd nextId _ _ _ hl
      obtain ⟨hm2, hc2⟩ := ih g1 r1 n1 genes' rnd' nextId' h
      refine ⟨mutatedFrom_trans (mutatedFrom_mono hm1 ?_) (mutatedFrom_mono hm2 ?_), sameCounts_trans hc1 hc2⟩
      · rintro i L ⟨hi, hL⟩
        exact ⟨hi, by rw [hL]; exact List.mem_cons_self _ _⟩
      · rintro i L ⟨hi, hL⟩
        exact ⟨hi, List.mem_cons_of_mem _ hL⟩
    | thrown e g => simp [hl] at h
    | logicError => simp [hl] at h
    | undefinedBehaviour => simp [hl] at h
    | pending => simp [hl] at h

theorem mutatePass_mutatedFrom (P : SpeciesTrait) (p : Nat) (genes : Genes) (rnd : Draws)
    (nextId : Nat) (genes' : Genes) (rnd' : Draws) (nextId' : Nat)
    (h : mutatePass P p genes rnd nextId = .ok genes' rnd' nextId') :
    MutatedFrom P (fun i L => i = p ∧ L ∈ sampledInPass rnd) genes genes' ∧
    (∀ S ∈ rnd'.sampleOutcomes, S ∈ rnd.sampleOutcomes) := by
  unfold mutatePass Binomial at h
  cases hb : rnd.binomialOutcomes with
  | nil => simp [hb] at h
  | cons NbMut brest =>
    simp only [hb] at h
    by_cases hn : NbMut > 0
    · simp only [hn, if_true] at h
      unfold sample at h
      simp only at h
      cases hsm : rnd.sampleOutcomes with
      | nil => simp [hsm] at h
      | cons S srest =>
        simp only [hsm] at h
        obtain ⟨hm, hc⟩ := mutatePositions_mutatedFrom P p S genes _ nextId _ _ _ h
        have hS : sampledInPass rnd = S := by simp [sampledInPass, hb, hsm, hn]
        rw [hS]
        refine ⟨hm, ?_⟩
        intro S' hS'
        rw [hc.2] at hS'
        exact List.mem_cons_of_mem _ hS'
    · simp only [hn, if_false, MutateResult.ok.injEq] at h
      obtain ⟨rfl, rfl, _⟩ := h
      exact ⟨mutatedFrom_refl _ _ _, fun S hS => hS⟩

theorem mutatePasses_mutatedFrom (P : SpeciesTrait) (remaining : Nat) :
    ∀ (p : Nat) (genes : Genes) (rnd : Draws) (nextId : Nat) (genes' : Genes) (rnd' : Draws)
      (nextId' : Nat),
      mutatePasses P remaining p genes rnd nextId = .ok genes' rnd' nextId' →
      MutatedFrom P (fun i _ => p ≤ i ∧ i < p + remaining) genes genes' ∧
      (∀ S ∈ rnd'.sampleOutcomes, S ∈ rnd.sampleOutcomes) := by
  induction remaining with
  | zero =>
    intro p genes rnd nextId genes' rnd' nextId' h
    simp only [mutatePasses, MutateResult.ok.injEq] at h
    obtain ⟨rfl, rfl, _⟩ := h
    exact ⟨mutatedFrom_refl _ _ _, fun S hS => hS⟩
  | succ remaining ih =>
    intro p genes rnd nextId genes' rnd' nextId' h
    rw [mutatePasses] at h
    cases hl : mutatePass P p genes rnd nextId with
    | ok g1 r1 n1 =>
      simp only [hl] at h
      obtain ⟨hm1, hc1⟩ := mutatePass_mutatedFrom P p genes rnd nextId _ _ _ hl
      obtain ⟨hm2, hc2⟩ := ih (p + 1) g1 r1 n1 genes' rnd' nextId' h
      refine ⟨mutatedFrom_trans (mutatedFrom_mono hm1 ?_) (mutatedFrom_mono hm2 ?_), fun S hS => hc1 S (hc2 S hS)⟩
      · rintro i L ⟨hi, _⟩
        omega
      · rintro i L ⟨hi1, hi2⟩
        omega
    | thrown e g => simp [hl] at h
    | logicError => simp [hl] at h
    | undefinedBehaviour => simp [hl] at h
    | pending => simp [hl] at h

/-! ## Lemmas on `mutate`: no failure on a well-formed state -/

theorem drawSelectionCoef_prefix (P : SpeciesTrait) (rnd : Draws) (x : ℚ) (rnd' : Draws)
    (h : drawSelectionCoef P rnd = .ok x rnd') :
    ∃ rejected, rnd.realOutcomes = rejected ++ x :: rnd'.realOutcomes ∧
      ∀ r ∈ rejected, P.isValidTraitVal r = false := by
  have hre : ∀ (hh : redraw (fun s => !P.isValidTraitVal s) rnd rnd.realOutcomes = .ok x rnd'),
      ∃ rejected, rnd.realOutcomes = rejected ++ x :: rnd'.realOutcomes ∧
        ∀ r ∈ rejected, P.isValidTraitVal r = false := by
    intro hh
    obtain ⟨_, _, rejected, h3, h4⟩ := redraw_ok _ _ _ _ _ hh
    exact ⟨rejected, h3, fun r hr => by simpa using h4 r hr⟩
  have hfr : ∀ (hh : FRandom rnd = .ok x rnd'),
      ∃ rejected, rnd.realOutcomes = rejected ++ x :: rnd'.realOutcomes ∧
        ∀ r ∈ rejected, P.isValidTraitVal r = false :=
    fun hh => ⟨[], (FRandom_ok _ _ _ hh).1, by simp⟩
  unfold drawSelectionCoef at h
  cases hm : P.mutationDistribution <;> simp only [hm] at h
  · cases h1 : P.mutationParameters .MAX <;> cases h2 : P.mutationParameters .MIN <;>
      simp only [h1, h2] at h <;> first | cases h | exact hfr h
  · cases h1 : P.mutationParameters .MEAN <;> cases h2 : P.mutationParameters .SD <;>
      simp only [h1, h2] at h <;> first | cases h | exact hre h
  · cases h1 : P.mutationParameters .SHAPE <;> cases h2 : P.mutationParameters .SCALE <;>
      simp only [h1, h2] at h <;> first | cases h | exact hre h
  · cases h1 : P.mutationParameters .MEAN <;>
      simp only [h1] at h <;> first | cases h | exact hre h
  · cases h
  · cases h

/-- The selection loop of `mutate` returns the first real outcome that the validity
predicate accepts: every outcome before it was drawn and rejected. -/
theorem selectionLoop_first_accepted (P : SpeciesTrait) :
    ∀ (fuel : Nat) (rnd : Draws) (x : ℚ) (rnd' : Draws),
      doWhile (drawSelectionCoef P) (fun s => !P.isValidTraitVal s) fuel rnd = .ok x rnd' →
      P.isValidTraitVal x = true ∧
      ∃ rejected, rnd.realOutcomes = rejected ++ x :: rnd'.realOutcomes ∧
        ∀ r ∈ rejected, P.isValidTraitVal r = false := by
  intro fuel
  induction fuel with
  | zero => intro rnd x rnd' h; simp [doWhile] at h
  | succ fuel ih =>
    intro rnd x rnd' h
    rw [doWhile] at h
    cases hb : drawSelectionCoef P rnd with
    | ok y rnd1 =>
      simp only [hb] at h
      obtain ⟨rej1, hr1, hv1⟩ := drawSelectionCoef_prefix P rnd y rnd1 hb
      by_cases hy : P.isValidTraitVal y = true
      · simp only [hy, Bool.not_true, Bool.false_eq_true, if_false,
          DrawResult.ok.injEq] at h
        obtain ⟨rfl, rfl⟩ := h
        exact ⟨hy, rej1, hr1, hv1⟩
      · have hy' : P.isValidTraitVal y = false := by simpa using hy
        simp only [hy', Bool.not_false, if_true] at h
        obtain ⟨hx, rej2, hr2, hv2⟩ := ih rnd1 x rnd' h
        refine ⟨hx, rej1 ++ y :: rej2, by rw [hr1, hr2]; simp, ?_⟩
        intro r hr
        rcases List.mem_append.1 hr with e | e
        · exact hv1 r e
        · rcases List.mem_cons.1 e with e' | e'
          · rw [e']; exact hy'
          · exact hv2 r e'
    | logicError => simp [hb] at h
    | undefinedBehaviour => simp [hb] at h
    | pending => simp [hb] at h

theorem dominanceLoop_suffix (P : SpeciesTrait) (selCoef : ℚ) :
    ∀ (fuel : Nat) (rnd : Draws) (x : ℚ) (rnd' : Draws),
      doWhile (drawDominance P selCoef) (fun h => decide (h < 0)) fuel rnd = .ok x rnd' →
      ∃ used, rnd.realOutcomes = used ++ rnd'.realOutcomes := by
  have hbody : ∀ (rnd : Draws) (y : ℚ) (rnd1 : Draws),
      drawDominance P selCoef rnd = .ok y rnd1 →
      ∃ used, rnd.realOutcomes = used ++ rnd1.realOutcomes := by
    intro rnd y rnd1 h
    have hre : ∀ (hh : redraw (fun h => decide (h ≤ 0)) rnd rnd.realOutcomes = .ok y rnd1),
        ∃ used, rnd.realOutcomes = used ++ rnd1.realOutcomes := by
      intro hh
      obtain ⟨_, _, rejected, h3, _⟩ := redraw_ok _ _ _ _ _ hh
      exact ⟨rejected ++ [y], by rw [h3]; simp⟩
    have hfr : ∀ (hh : FRandom rnd = .ok y rnd1),
        ∃ used, rnd.realOutcomes = used ++ rnd1.realOutcomes :=
      fun hh => ⟨[y], by rw [(FRandom_ok _ _ _ hh).1]; simp⟩
    unfold drawDominance at h
    cases hm : P.dominanceDistribution <;> simp only [hm] at h
    · cases h1 : P.dominanceParameters .MAX <;> cases h2 : P.dominanceParameters .MIN <;>
        simp only [h1, h2] at h <;> first | cases h | exact hfr h
    · cases h1 : P.dominanceParameters .MEAN <;> cases h2 : P.dominanceParameters .SD <;>
        simp only [h1, h2] at h <;> first | cases h | exact hre h
    · cases h1 : P.dominanceParameters .SHAPE <;> cases h2 : P.dominanceParameters .SCALE <;>
        simp only [h1, h2] at h <;> first | cases h | exact hfr h
    · cases h1 : P.dominanceParameters .MEAN <;>
        simp only [h1] at h <;> first | cases h | exact hfr h
    · exact hfr h
    · cases h
  intro fuel
  induction fuel with
  | zero => intro rnd x rnd' h; simp [doWhile] at h
  | succ fuel ih =>
    intro rnd x rnd' h
    rw [doWhile] at h
    cases hb : drawDominance P selCoef rnd with
    | ok y rnd1 =>
      simp only [hb] at h
      obtain ⟨used1, hu1⟩ := hbody rnd y rnd1 hb
      by_cases hy : y < 0
      · simp only [hy, decide_True, if_true] at h
        obtain ⟨used2, hu2⟩ := ih rnd1 x rnd' h
        exact ⟨used1 ++ used2, by rw [hu1, hu2]; simp⟩
      · simp only [hy, decide_False, Bool.false_eq_true, if_false,
          DrawResult.ok.injEq] at h
        obtain ⟨rfl, rfl⟩ := h
        exact ⟨used1, hu1⟩
    | logicError => simp [hb] at h
    | undefinedBehaviour => simp [hb] at h
    | pending => simp [hb] at h

theorem mutateLocus_run (P : SpeciesTrait) (p m : Nat) (genes : Genes) (rnd : Draws)
    (nextId : Nat) (genes' : Genes) (rnd' : Draws) (nextId' : Nat)
    (h : mutateLocus P p m genes rnd nextId = .ok genes' rnd' nextId') :
    ∃ slots s rnd1 d, find genes m = some slots ∧ p < slots.length ∧
      doWhile (drawSelectionCoef P) (fun s => !P.isValidTraitVal s)
        (rnd.realOutcomes.length + 1) rnd = .ok s rnd1 ∧
      doWhile (drawDominance P s) (fun h => decide (h < 0))
        (rnd1.realOutcomes.length + 1) rnd1 = .ok d rnd' ∧
      genes' = assign genes m (slots.set p (some ⟨nextId, s, d⟩)) ∧
      nextId' = nextId + 1 := by
  unfold mutateLocus at h
  cases hf : find genes m with
  | none => simp [hf] at h
  | some slots =>
    simp only [hf] at h
    cases hs : doWhile (drawSelectionCoef P) (fun s => !P.isValidTraitVal s)
        (rnd.realOutcomes.length + 1) rnd with
    | ok s rnd1 =>
      simp only [hs] at h
      cases hd : doWhile (drawDominance P s) (fun h => decide (h < 0))
          (rnd1.realOutcomes.length + 1) rnd1 with
      | ok d rnd2 =>
        simp only [hd] at h
        by_cases hp : p < slots.length
        · simp only [hp, if_true, MutateResult.ok.injEq] at h
          obtain ⟨hg, hr, hn⟩ := h
          subst hr
          exact ⟨slots, s, rnd1, d, rfl, hp, rfl, hd, hg.symm, hn.symm⟩
        · simp [hp] at h
      | logicError => simp [hd] at h
      | undefinedBehaviour => simp [hd] at h
      | pending => simp [hd] at h
    | logicError => simp [hs] at h
    | undefinedBehaviour => simp [hs] at h
    | pending => simp [hs] at h

/-! ## Claims on mutation -/

/-! ### C11 -/

/-- C11 (as stated, refuted): with UNIFORM(-1, 1) and a predicate accepting only `[0, 1]`,
let the uniform draws come out as -1/2, 1/2, 1/4. `drawSelectionCoef` returns the first
draw -1/2, which the predicate rejects; the loop of `mutate` around it draws again, and the
allele stored at locus 5 has the selection coefficient 1/2, not the first draw. -/
theorem mutate_uniform_redraws :
    uniformWideSpecies.mutationDistribution = .UNIFORM ∧
    uniformWideSpecies.isValidTraitVal (-1/2) = false ∧
    drawSelectionCoef uniformWideSpecies ⟨[], [], [-1/2, 1/2, 1/4]⟩
      = .ok (-1/2) ⟨[], [], [1/2, 1/4]⟩ ∧
    mutate uniformWideSpecies [(5, [some wildType])] ⟨[1], [[5]], [-1/2, 1/2, 1/4]⟩ 1
      = .ok [(5, [some ⟨1, 1/2, 1/4⟩])] ⟨[], [], []⟩ 2 := by
  refine ⟨rfl, ?_, ?_, ?_⟩
  · norm_num [uniformWideSpecies]
  · norm_num [drawSelectionCoef, FRandom, uniformWideSpecies, wideParams]
  · norm_num [mutate, mutatePasses, mutatePass, mutatePositions, mutateLocus, doWhile,
      drawSelectionCoef, drawDominance, FRandom, Binomial, sample, find, assign,
      uniformWideSpecies, wideParams, uniformParams]

/-- C11 (amended): when the mutation distribution is UNIFORM, `drawSelectionCoef` returns
its uniform draw without consulting the validity predicate; but `mutate` calls
`drawSelectionCoef` inside its own rejection loop, for every family. So the selection
coefficient of the allele that `mutate` stores at a locus is the first draw made for that
locus that the predicate accepts, every draw before it having been rejected; it is the
first draw exactly when the predicate accepts that one. NORMAL, GAMMA and NEGEXP draws are
redrawn already inside `drawSelectionCoef`. -/
theorem mutate_uniform_first_accepted (P : SpeciesTrait) (p m : Nat) (genes : Genes)
    (rnd : Draws) (nextId : Nat) (genes' : Genes) (rnd' : Draws) (nextId' : Nat)
    (hU : P.mutationDistribution = .UNIFORM)
    (hmax : P.mutationParameters .MAX ≠ none) (hmin : P.mutationParameters .MIN ≠ none)
    (hret : mutateLocus P p m genes rnd nextId = .ok genes' rnd' nextId') :
    (∀ (r : Draws) (x : ℚ) (rest : List ℚ), r.realOutcomes = x :: rest →
      drawSelectionCoef P r = .ok x { r with realOutcomes := rest }) ∧
    (∃ rejected s rest slots d,
      rnd.realOutcomes = rejected ++ s :: rest ∧
      (∀ x ∈ rejected, P.isValidTraitVal x = false) ∧
      P.isValidTraitVal s = true ∧
      find genes m = some slots ∧
      genes' = assign genes m (slots.set p (some ⟨nextId, s, d⟩))) ∧
    (∀ (P' : SpeciesTrait) (r : Draws) (x : ℚ) (r' : Draws),
      P'.mutationDistribution ≠ .UNIFORM → drawSelectionCoef P' r = .ok x r' →
      P'.isValidTraitVal x = true) := by
  refine ⟨?_, ?_, ?_⟩
  · intro r x rest hr
    obtain ⟨vmax, hvmax⟩ := Option.ne_none_iff_exists'.1 hmax
    obtain ⟨vmin, hvmin⟩ := Option.ne_none_iff_exists'.1 hmin
    simp [drawSelectionCoef, hU, hvmax, hvmin, FRandom, hr]
  · obtain ⟨slots, s, rnd1, d, hf, _, hs, _, hg, _⟩ :=
      mutateLocus_run P p m genes rnd nextId _ _ _ hret
    obtain ⟨hv, rejected, hsplit, hrej⟩ := selectionLoop_first_accepted P _ _ _ _ hs
    exact ⟨rejected, s, rnd1.realOutcomes, slots, d, hsplit, hrej, hv, hf, hg⟩
  · intro P' r x r' hne h
    unfold drawSelectionCoef at h
    cases hm : P'.mutationDistribution <;> simp only [hm] at h
    · exact absurd hm hne
    · cases h1 : P'.mutationParameters .MEAN <;> cases h2 : P'.mutationParameters .SD <;>
        simp only [h1, h2] at h <;>
        first | cases h | simpa using (redraw_ok _ _ _ _ _ h).1
    · cases h1 : P'.mutationParameters .SHAPE <;> cases h2 : P'.mutationParameters .SCALE <;>
        simp only [h1, h2] at h <;>
        first | cases h | simpa using (redraw_ok _ _ _ _ _ h).1
    · cases h1 : P'.mutationParameters .MEAN <;>
        simp only [h1] at h <;>
        first | cases h | simpa using (redraw_ok _ _ _ _ _ h).1
    · cases h
    · cases h

/-- C11 (amended) at a concrete input: the run of `mutate_uniform_redraws`, at locus 5. -/
theorem mutate_uniform_first_accepted_witness :
    ∃ rejected s rest slots d,
      ([-1/2, 1/2, 1/4] : List ℚ) = rejected ++ s :: rest ∧
      (∀ x ∈ rejected, uniformWideSpecies.isValidTraitVal x = false) ∧
      uniformWideSpecies.isValidTraitVal s = true ∧
      find [(5, [some wildType])] 5 = some slots ∧
      [(5, [some ⟨1, 1/2, 1/4⟩])]
        = assign [(5, [some wildType])] 5 (slots.set 0 (some ⟨1, s, d⟩)) :=
  (mutate_uniform_first_accepted uniformWideSpecies 0 5 [(5, [some wildType])]
    ⟨[], [], [-1/2, 1/2, 1/4]⟩ 1 [(5, [some ⟨1, 1/2, 1/4⟩])] ⟨[], [], []⟩ 2 rfl
    (by simp [uniformWideSpecies, wideParams]) (by simp [uniformWideSpecies, wideParams])
    (by norm_num [mutateLocus, doWhile, drawSelectionCoef, drawDominance, FRandom, find,
      assign, uniformWideSpecies, wideParams, uniformParams])).2.1

/-! ### C18 -/

/-- C18: every allele that `mutate` stores has a selection coefficient accepted by
`isValidTraitVal` and a dominance coefficient `>= 0`, for every mutation and dominance
family and every sequence of outcomes on which `mutate` returns: each store writes an
allele with these two properties, and in the returned state every slot holds either the
reference it held before the call or such an allele. -/
theorem mutate_stores_accepted (P : SpeciesTrait) (genes : Genes) (rnd : Draws) (nextId : Nat)
    (genes' : Genes) (rnd' : Draws) (nextId' : Nat)
    (hret : mutate P genes rnd nextId = .ok genes' rnd' nextId') :
    (∀ p m g r n g1 r1 n1, mutateLocus P p m g r n = .ok g1 r1 n1 →
      ∃ slots s d, find g m = some slots ∧
        g1 = assign g m (slots.set p (some ⟨n, s, d⟩)) ∧
        P.isValidTraitVal s = true ∧ 0 ≤ d) ∧
    keys genes' = keys genes ∧
    ∀ L slots, find genes L = some slots →
      ∃ slots', find genes' L = some slots' ∧
        ∀ i : Nat, slots'[i]? = slots[i]? ∨
          ∃ a : Allele, slots'[i]? = some (some a) ∧
            P.isValidTraitVal a.alleleValue = true ∧ 0 ≤ a.dominanceCoef := by
  refine ⟨?_, ?_, ?_⟩
  · intro p m g r n g1 r1 n1 h
    obtain ⟨_, slots, s, d, hf, _, hs, hd, hg⟩ := mutateLocus_ok P p m g r n _ _ _ h
    exact ⟨slots, s, d, hf, hg, hs, hd⟩
  · exact (mutatePasses_mutatedFrom P P.ploidy 0 genes rnd nextId _ _ _ hret).1.1
  · intro L slots hf
    obtain ⟨slots', hf', _, hs⟩ :=
      (mutatePasses_mutatedFrom P P.ploidy 0 genes rnd nextId _ _ _ hret).1.2 L slots hf
    refine ⟨slots', hf', fun i => ?_⟩
    rcases hs i with e | ⟨_, a, ha, hacc⟩
    · exact Or.inl e
    · exact Or.inr ⟨a, ha, hacc.1, hacc.2⟩

/-- C18 at a concrete input: the run of `mutate_uniform_redraws`, in which the first
uniform draw is rejected. -/
theorem mutate_stores_accepted_witness :
    keys [(5, [some (⟨1, 1/2, 1/4⟩ : Allele)])] = keys [(5, [some wildType])] ∧
    ∀ L slots, find [(5, [some wildType])] L = some slots →
      ∃ slots', find [(5, [some ⟨1, 1/2, 1/4⟩])] L = some slots' ∧
        ∀ i : Nat, slots'[i]? = slots[i]? ∨
          ∃ a : Allele, slots'[i]? = some (some a) ∧
            uniformWideSpecies.isValidTraitVal a.alleleValue = true ∧ 0 ≤ a.dominanceCoef :=
  (mutate_stores_accepted uniformWideSpecies [(5, [some wildType])]
    ⟨[1], [[5]], [-1/2, 1/2, 1/4]⟩ 1 [(5, [some ⟨1, 1/2, 1/4⟩])] ⟨[], [], []⟩ 2
    (by norm_num [mutate, mutatePasses, mutatePass, mutatePositions, mutateLocus, doWhile,
      drawSelectionCoef, drawDominance, FRandom, Binomial, sample, find, assign,
      uniformWideSpecies, wideParams, uniformParams])).2

/-! ### C15 -/

theorem advancePast_le (L : Nat) (after : List Nat) :
    ∀ (nb : Int) (c : Int) (nb' : Int) (after' : List Nat) (c' : Int),
      advancePast L nb after c = some (nb', after', c') → (L : Int) ≤ nb' := by
  induction after with
  | nil =>
    intro nb c nb' after' c' h
    rw [advancePast] at h
    by_cases hgt : (L : Int) > nb
    · simp [hgt] at h
    · simp only [hgt, if_false, Option.some.injEq, Prod.mk.injEq] at h
      omega
  | cons b after ih =>
    intro nb c nb' after' c' h
    rw [advancePast] at h
    by_cases hgt : (L : Int) > nb
    · simp only [hgt, if_true] at h
      exact ih (toInt b) (1 - c) nb' after' c' h
    · simp only [hgt, if_false, Option.some.injEq, Prod.mk.injEq] at h
      omega

theorem index_mem (pair : Slots) (c : Int) (a : AllelePtr) (h : index pair c = some a) :
    a ∈ pair := by
  unfold index at h
  by_cases hc : 0 ≤ c
  · simp only [hc, if_true] at h
    exact List.getElem?_mem h
  · simp [hc] at h

/-- A maternal walk that returns appends the parent loci to the keys of the offspring, when
these all lie above the keys already present. -/
theorem inheritLoop_mother_keys (parent : Genes) :
    ∀ (nb : Int) (after : List Nat) (c : Int) (genes genes' : Genes),
      inheritLoop true parent nb after c genes = .ok genes' →
      Ascending (keys parent) →
      (∀ k ∈ keys genes, ∀ L ∈ keys parent, k < L) →
      keys genes' = keys genes ++ keys parent := by
  induction parent with
  | nil =>
    intro nb after c genes genes' h _ _
    simp only [inheritLoop, Outcome.ok.injEq] at h
    simp [keys, h]
  | cons q rest ih =>
    intro nb after c genes genes' h hasc hlt
    obtain ⟨L0, pair0⟩ := q
    have hasc0 : Ascending (L0 :: keys rest) := by simpa [keys] using hasc
    simp only [Ascending, List.pairwise_cons] at hasc0
    rw [inheritLoop] at h
    cases ha : advancePast L0 nb after c with
    | none => simp [ha] at h
    | some r =>
      obtain ⟨nb', after', c'⟩ := r
      have hle := advancePast_le L0 after nb c nb' after' c' ha
      simp only [ha, hle, if_true] at h
      have habs : find genes L0 = none := by
        rw [find_eq_none_iff]
        intro hmem
        have := hlt L0 hmem L0 (by simp [keys])
        omega
      cases hl : inheritLocus true genes L0 pair0 c' with
      | ok g1 =>
        simp only [hl] at h
        unfold inheritLocus at hl
        cases hi : index pair0 c' with
        | none => simp [hi] at hl
        | some a =>
          simp only [hi, habs, Bool.not_true, Bool.false_eq_true, if_false,
            Outcome.ok.injEq] at hl
          have hg1 : g1 = genes ++ [(L0, (List.replicate 2 none).set FEM a)] := by
            rw [← hl]
            exact insert_append_last genes L0 _ (fun k hk => hlt k hk L0 (by simp [keys]))
          have hk1 : keys g1 = keys genes ++ [L0] := by rw [hg1]; simp [keys]
          rw [ih nb' after' c' g1 genes' h hasc0.2 ?_, hk1]
          · simp [keys]
          · intro k hk L hL
            rw [hk1] at hk
            rcases List.mem_append.1 hk with e | e
            · exact hlt k e L (by simp only [keys, List.map_cons, List.mem_cons]; exact Or.inr hL)
            · simp only [List.mem_singleton] at e
              rw [e]; exact hasc0.1 L hL
      | thrown e g => simp [hl] at h
      | undefinedBehaviour => simp [hl] at h

theorem mem_of_mem_keys (g : Genes) (L : Nat) (h : L ∈ keys g) : ∃ slots, (L, slots) ∈ g := by
  obtain ⟨q, hq, hqk⟩ := List.mem_map.1 h
  exact ⟨q.2, by rw [← hqk]; exact hq⟩

/-- Diploid inheritance from a mother and then a father that satisfy the invariant, over a
non-empty position set: both calls return and the offspring satisfies the invariant. -/
theorem inherit_invariant (P : SpeciesTrait) (hpos : Ascending P.genePositions)
    (mother father : Genes) (Bm Bf : List Nat) (cm cf : Int) (hpl : P.ploidy = 2)
    (hIm : Invariant P mother) (hIf : Invariant P father)
    (hBm : Ascending Bm) (hBf : Ascending Bf)
    (hcovm : ∃ b ∈ Bm, ∀ L ∈ P.genePositions, L ≤ b)
    (hcovf : ∃ b ∈ Bf, ∀ L ∈ P.genePositions, L ≤ b)
    (hrm : InRange Bm) (hrf : InRange Bf)
    (hcm : cm = 0 ∨ cm = 1) (hcf : cf = 0 ∨ cf = 1) (hne : mother ≠ []) :
    ∃ g1 g2, inheritDiploid true mother Bm cm [] = .ok g1 ∧
      inheritDiploid false father Bf cf g1 = .ok g2 ∧ Invariant P g2 := by
  obtain ⟨hkm, hlm, hnm⟩ := hIm
  obtain ⟨hkf, hlf, hnf⟩ := hIf
  have hascm : Ascending (keys mother) := by rw [hkm]; exact hpos
  have hascf : Ascending (keys father) := by rw [hkf]; exact hpos
  have hdipm : Diploid mother := fun q hq => by rw [hlm q hq, hpl]
  have hdipf : Diploid father := fun q hq => by rw [hlf q hq, hpl]
  have hnef : father ≠ [] := by
    intro e
    apply hne
    have : keys mother = [] := by rw [hkm, ← hkf, e]; rfl
    simpa [keys] using this
  have hcovm' : Covers Bm (keys mother) := by rw [hkm]; exact hcovm
  have hcovf' : Covers Bf (keys father) := by rw [hkf]; exact hcovf
  obtain ⟨g1, hok1, hchar1, hframe1⟩ :=
    (inheritDiploid_mother mother Bm cm [] hne hascm hdipm hBm hcm hcovm' hrm).1
      (fun L _ => by simp [find])
  have hk1 : keys g1 = keys mother := by
    obtain ⟨nb, after, c', hrun, _⟩ :=
      inheritDiploid_eq_loop true mother Bm cm [] hne hascm hBm hcm hcovm' hrm
    rw [hrun] at hok1
    have := inheritLoop_mother_keys mother nb after c' [] g1 hok1 hascm (by simp [keys])
    simpa [keys] using this
  have hoff1 : ∀ L slots, find g1 L = some slots → slots.length = 2 := by
    intro L slots hfs
    by_cases hk : L ∈ keys mother
    · obtain ⟨pm, hpm⟩ := mem_of_mem_keys mother L hk
      obtain ⟨a, _, hfa⟩ := hchar1 L pm hpm
      rw [hfa] at hfs
      cases hfs; rfl
    · rw [hframe1 L hk] at hfs
      simp [find] at hfs
  have hpres1 : ∀ L ∈ keys father, find g1 L ≠ none := by
    intro L hL
    rw [Ne, find_eq_none_iff, hk1, hkm, ← hkf]
    exact fun h => h hL
  obtain ⟨g2, hok2, hchar2, _, hk2⟩ :=
    (inheritDiploid_father father Bf cf g1 hnef hascf hdipf hBf hcf hcovf' hrf hoff1).1 hpres1
  have hkeys2 : keys g2 = P.genePositions := by rw [hk2, hk1, hkm]
  have hslots : ∀ q ∈ g2, ∃ pm pf am af, (q.1, pm) ∈ mother ∧ (q.1, pf) ∈ father ∧
      am ∈ pm ∧ af ∈ pf ∧ q.2 = [am, af] := by
    intro q hq
    have hfq : find g2 q.1 = some q.2 :=
      find_of_mem g2 (by rw [hkeys2]; exact hpos) q.1 q.2 hq
    have hqk : q.1 ∈ P.genePositions := by
      rw [← hkeys2]; exact List.mem_map.2 ⟨q, hq, rfl⟩
    obtain ⟨pm, hpm⟩ := mem_of_mem_keys mother q.1 (by rw [hkm]; exact hqk)
    obtain ⟨pf, hpf⟩ := mem_of_mem_keys father q.1 (by rw [hkf]; exact hqk)
    obtain ⟨am, him, hf1⟩ := hchar1 q.1 pm hpm
    obtain ⟨af, slots, hif, hfs, hf2⟩ := hchar2 q.1 pf hpf
    rw [hf1] at hfs
    cases hfs
    rw [hfq] at hf2
    refine ⟨pm, pf, am, af, hpm, hpf, index_mem _ _ _ him, index_mem _ _ _ hif, ?_⟩
    simpa [MAL] using hf2
  refine ⟨g1, g2, hok1, hok2, hkeys2, ?_, ?_⟩
  · intro q hq
    obtain ⟨_, _, am, af, _, _, _, _, hq2⟩ := hslots q hq
    rw [hq2, hpl]; rfl
  · intro q hq slot hslot
    obtain ⟨pm, pf, am, af, hpm, hpf, ham, haf, hq2⟩ := hslots q hq
    rw [hq2] at hslot
    simp only [List.mem_cons, List.mem_singleton, List.not_mem_nil, or_false] at hslot
    rcases hslot with e | e
    · rw [e]; exact hnm (q.1, pm) hpm am ham
    · rw [e]; exact hnf (q.1, pf) hpf af haf

/-- C14 (as stated, refuted): `parent3` and `offspring3` satisfy the invariant of the
diploid species `diploidSpecies3`, and the breakpoint set `{3000000000}` covers all loci,
yet the maternal `inheritGenes` call into the empty offspring does not complete: the
breakpoint is negative once stored in an `int`, and the walk dereferences
`recomPositions.end()`. With an empty position set the empty state satisfies the invariant,
and the maternal call does not complete either, as it reads the first key of the empty
parent state. -/
theorem inheritGenes_invariant_not_reached :
    Invariant diploidSpecies3 parent3 ∧ Invariant diploidSpecies3 offspring3 ∧
    (∃ b ∈ [3000000000], ∀ L ∈ diploidSpecies3.genePositions, L ≤ b) ∧
    inheritGenes .inheritDiploid true parent3 [3000000000] 0 []
      = Outcome.undefinedBehaviour ∧
    Invariant { diploidSpecies3 with genePositions := [] } [] ∧
    inheritGenes .inheritDiploid true [] [10] 0 [] = Outcome.undefinedBehaviour := by
  refine ⟨?_, ?_, ⟨3000000000, by simp, by simp [diploidSpecies3]⟩, ?_, ?_, ?_⟩
  · simp [Invariant, diploidSpecies3, parent3, keys]
  · simp [Invariant, diploidSpecies3, offspring3, keys]
  · simp [inheritGenes, inheritDiploid, inheritLoop, advancePast, toInt, parent3]
  · simp [Invariant, keys]
  · simp [inheritGenes, inheritDiploid]

/-- C14 (amended): the structural invariant of the genetic state (the keys are the
configured positions, every locus holds exactly `ploidy` slots, no slot is null) holds after
construction; is preserved by every `mutate` call that returns; and holds for a diploid
offspring created empty once `inheritGenes` has been applied from a mother and then from a
father that both satisfy it, with breakpoint sets of positions below `2^31` covering all
loci and starting copies in `{0, 1}`. The two `inheritGenes` calls return whenever the
position set is non-empty. -/
theorem invariant_maintained (P : SpeciesTrait) (hpos : Ascending P.genePositions) :
    (∀ t, GeneticFitnessTrait P = .ok t → Invariant P t.genes) ∧
    (∀ genes rnd nextId genes' rnd' nextId', Invariant P genes →
      mutate P genes rnd nextId = .ok genes' rnd' nextId' → Invariant P genes') ∧
    (∀ (mother father : Genes) (Bm Bf : List Nat) (cm cf : Int),
      P.ploidy = 2 → Invariant P mother → Invariant P father →
      Ascending Bm → Ascending Bf →
      (∃ b ∈ Bm, ∀ L ∈ P.genePositions, L ≤ b) → (∃ b ∈ Bf, ∀ L ∈ P.genePositions, L ≤ b) →
      (∀ b ∈ Bm, b < 2147483648) → (∀ b ∈ Bf, b < 2147483648) →
      (cm = 0 ∨ cm = 1) → (cf = 0 ∨ cf = 1) →
      (∀ g1 g2, inheritGenes .inheritDiploid true mother Bm cm [] = .ok g1 →
        inheritGenes .inheritDiploid false father Bf cf g1 = .ok g2 → Invariant P g2) ∧
      (P.genePositions ≠ [] →
        ∃ g1 g2, inheritGenes .inheritDiploid true mother Bm cm [] = .ok g1 ∧
          inheritGenes .inheritDiploid false father Bf cf g1 = .ok g2)) := by
  refine ⟨?_, ?_, ?_⟩
  · intro t hok
    obtain ⟨hk, hs, _⟩ := construct_fresh P t hpos hok
    refine ⟨hk, fun q hq => by rw [hs q hq]; simp, ?_⟩
    intro q hq slot hslot
    rw [hs q hq] at hslot
    rw [(List.mem_replicate.1 hslot).2]
    simp
  · intro genes rnd nextId genes' rnd' nextId' hinv hret
    obtain ⟨hk, hl, hn⟩ := hinv
    obtain ⟨⟨hk', hs⟩, _⟩ := mutatePasses_mutatedFrom P P.ploidy 0 genes rnd nextId _ _ _ hret
    have hback : ∀ q ∈ genes', ∃ slots, (q.1, slots) ∈ genes ∧ q.2.length = slots.length ∧
        ∀ i : Nat, q.2[i]? = slots[i]? ∨ ∃ a : Allele, q.2[i]? = some (some a) := by
      intro q hq
      have hfq : find genes' q.1 = some q.2 :=
        find_of_mem genes' (by rw [hk', hk]; exact hpos) q.1 q.2 hq
      have hqk : q.1 ∈ keys genes := by
        rw [← hk']; exact List.mem_map.2 ⟨q, hq, rfl⟩
      obtain ⟨slots, hmem⟩ := mem_of_mem_keys genes q.1 hqk
      have hfs : find genes q.1 = some slots :=
        find_of_mem genes (by rw [hk]; exact hpos) q.1 slots hmem
      obtain ⟨slots', hf', hlen, hi⟩ := hs q.1 slots hfs
      rw [hfq] at hf'
      cases hf'
      refine ⟨slots, hmem, hlen, fun i => ?_⟩
      rcases hi i with e | ⟨_, a, ha, _⟩
      · exact Or.inl e
      · exact Or.inr ⟨a, ha⟩
    refine ⟨by rw [hk', hk], ?_, ?_⟩
    · intro q hq
      obtain ⟨slots, hmem, hlen, _⟩ := hback q hq
      rw [hlen]; exact hl (q.1, slots) hmem
    · intro q hq slot hslot
      obtain ⟨slots, hmem, _, hi⟩ := hback q hq
      obtain ⟨i, hilt, hget⟩ := List.getElem_of_mem hslot
      have hsome : q.2[i]? = some slot := by rw [List.getElem?_eq_getElem hilt, hget]
      rcases hi i with e | ⟨a, ha⟩
      · rw [hsome] at e
        exact hn (q.1, slots) hmem slot (List.getElem?_mem e.symm)
      · rw [hsome] at ha
        cases ha
        simp
  · intro mother father Bm Bf cm cf hpl hIm hIf hBm hBf hcovm hcovf hrm hrf hcm hcf
    have hcore : mother ≠ [] → ∃ g1 g2, inheritDiploid true mother Bm cm [] = .ok g1 ∧
        inheritDiploid false father Bf cf g1 = .ok g2 ∧ Invariant P g2 :=
      inherit_invariant P hpos mother father Bm Bf cm cf hpl hIm hIf hBm hBf hcovm hcovf
        hrm hrf hcm hcf
    constructor
    · intro g1 g2 h1 h2
      by_cases hne : mother = []
      · subst hne
        simp [inheritGenes, inheritDiploid] at h1
      · obtain ⟨g1', g2', e1, e2, hinv⟩ := hcore hne
        have h1' : inheritDiploid true mother Bm cm [] = .ok g1 := h1
        rw [e1] at h1'
        cases h1'
        have h2' : inheritDiploid false father Bf cf g1 = .ok g2 := h2
        rw [e2] at h2'
        cases h2'
        exact hinv
    · intro hposne
      have hne : mother ≠ [] := by
        intro e
        apply hposne
        rw [← hIm.1, e]; rfl
      obtain ⟨g1, g2, e1, e2, _⟩ := hcore hne
      exact ⟨g1, g2, e1, e2⟩

/-- C14 (amended) at a concrete input, the species `diploidSpecies3`: the state of a
freshly constructed trait; the state after a `mutate` call on `parent3` that replaces the
maternal allele of locus 15; and the offspring of the mother `parent3` (breakpoints
`{10, 30, 40}`, starting copy 0) and the father `offspring3` (breakpoints `{20, 50}`,
starting copy 1). -/
theorem invariant_maintained_witness :
    Invariant diploidSpecies3
      [(5, [some wildType, some wildType]), (15, [some wildType, some wildType]),
       (35, [some wildType, some wildType])] ∧
    Invariant diploidSpecies3
      [(5, [some ⟨1, 1/10, 1/2⟩, some ⟨2, 2/10, 1/2⟩]),
       (15, [some ⟨12, 1/2, 1/4⟩, some ⟨4, 4/10, 1/2⟩]),
       (35, [some ⟨5, 5/10, 1/2⟩, some ⟨6, 6/10, 1/2⟩])] ∧
    ∃ g1 g2, inheritGenes .inheritDiploid true parent3 [10, 30, 40] 0 [] = .ok g1 ∧
      inheritGenes .inheritDiploid false offspring3 [20, 50] 1 g1 = .ok g2 ∧
      Invariant diploidSpecies3 g2 := by
  have h := invariant_maintained diploidSpecies3 (by simp [diploidSpecies3, Ascending])
  have h3 := h.2.2 parent3 offspring3 [10, 30, 40] [20, 50] 0 1 rfl
    (by simp [Invariant, diploidSpecies3, parent3, keys])
    (by simp [Invariant, diploidSpecies3, offspring3, keys])
    (by simp [Ascending]) (by simp [Ascending])
    ⟨40, by simp, by simp [diploidSpecies3]⟩ ⟨50, by simp, by simp [diploidSpecies3]⟩
    (by simp) (by simp) (Or.inl rfl) (Or.inr rfl)
  refine ⟨?_, ?_, ?_⟩
  · exact h.1
      { pSpeciesTrait := diploidSpecies3,
        genes := [(5, [some wildType, some wildType]), (15, [some wildType, some wildType]),
          (35, [some wildType, some wildType])],
        inheritFuncPtr := .inheritDiploid }
      (by simp [GeneticFitnessTrait, checkMutation, checkDominance, count, diploidSpecies3,
        uniformParams, initialise, insert])
  · exact h.2.1 parent3 ⟨[1, 0], [[15]], [1/2, 1/4]⟩ 12 _ ⟨[], [], []⟩ 13
      (by simp [Invariant, diploidSpecies3, parent3, keys])
      (by norm_num [mutate, mutatePasses, mutatePass, mutatePositions, mutateLocus, doWhile,
        drawSelectionCoef, drawDominance, FRandom, Binomial, sample, find, assign,
        diploidSpecies3, uniformParams, parent3])
  · obtain ⟨g1, g2, e1, e2⟩ := h3.2 (by simp [diploidSpecies3])
    exact ⟨g1, g2, e1, e2, h3.1 g1 g2 e1 e2⟩

/-! ## The fuel of the rejection loops

A rejection loop is run with one unit of fuel more than there are real outcomes left. Every
iteration that returns uses up an outcome, so the fuel cannot run out first: any larger
amount of fuel gives the same result. -/

theorem drawSelectionCoef_shorter (P : SpeciesTrait) (rnd : Draws) (x : ℚ) (rnd' : Draws)
    (h : drawSelectionCoef P rnd = .ok x rnd') :
    rnd'.realOutcomes.length < rnd.realOutcomes.length := by
  obtain ⟨rejected, hsplit, _⟩ := drawSelectionCoef_prefix P rnd x rnd' h
  rw [hsplit]
  simp only [List.length_append, List.length_cons]
  omega

theorem drawDominance_shorter (P : SpeciesTrait) (selCoef : ℚ) (rnd : Draws) (y : ℚ)
    (rnd' : Draws) (h : drawDominance P selCoef rnd = .ok y rnd') :
    rnd'.realOutcomes.length < rnd.realOutcomes.length := by
  have hre : ∀ (hh : redraw (fun h => decide (h ≤ 0)) rnd rnd.realOutcomes = .ok y rnd'),
      rnd'.realOutcomes.length < rnd.realOutcomes.length := by
    intro hh
    obtain ⟨_, _, rejected, h3, _⟩ := redraw_ok _ _ _ _ _ hh
    rw [h3]
    simp only [List.length_append, List.length_cons]
    omega
  have hfr : ∀ (hh : FRandom rnd = .ok y rnd'),
      rnd'.realOutcomes.length < rnd.realOutcomes.length := by
    intro hh
    rw [(FRandom_ok _ _ _ hh).1]
    simp
  unfold drawDominance at h
  cases hm : P.dominanceDistribution <;> simp only [hm] at h
  · cases h1 : P.dominanceParameters .MAX <;> cases h2 : P.dominanceParameters .MIN <;>
      simp only [h1, h2] at h <;> first | cases h | exact hfr h
  · cases h1 : P.dominanceParameters .MEAN <;> cases h2 : P.dominanceParameters .SD <;>
      simp only [h1, h2] at h <;> first | cases h | exact hre h
  · cases h1 : P.dominanceParameters .SHAPE <;> cases h2 : P.dominanceParameters .SCALE <;>
      simp only [h1, h2] at h <;> first | cases h | exact hfr h
  · cases h1 : P.dominanceParameters .MEAN <;>
      simp only [h1] at h <;> first | cases h | exact hfr h
  · exact hfr h
  · cases h

theorem doWhile_fuel (body : Draws → DrawResult) (again : ℚ → Bool)
    (hbody : ∀ rnd x rnd', body rnd = .ok x rnd' →
      rnd'.realOutcomes.length < rnd.realOutcomes.length) :
    ∀ (fuel fuel' : Nat) (rnd : Draws),
      rnd.realOutcomes.length < fuel → rnd.realOutcomes.length < fuel' →
      doWhile body again fuel rnd = doWhile body again fuel' rnd := by
  intro fuel
  induction fuel with
  | zero => intro fuel' rnd h _; omega
  | succ fuel ih =>
    intro fuel' rnd h h'
    match fuel', h' with
    | 0, h' => omega
    | fuel' + 1, h' =>
      rw [doWhile, doWhile]
      cases hb : body rnd with
      | ok x rnd1 =>
        simp only
        have hlt := hbody rnd x rnd1 hb
        by_cases hx : again x = true
        · simp only [hx, if_true]
          exact ih fuel' rnd1 (by omega) (by omega)
        · simp [hx]
      | logicError => rfl
      | undefinedBehaviour => rfl
      | pending => rfl

/-- The two rejection loops of `mutate` do not depend on the amount of fuel, once it exceeds
the number of real outcomes left. -/
theorem rejection_loops_fuel (P : SpeciesTrait) (selCoef : ℚ) (rnd : Draws) (fuel : Nat)
    (h : rnd.realOutcomes.length < fuel) :
    doWhile (drawSelectionCoef P) (fun s => !P.isValidTraitVal s) fuel rnd
      = doWhile (drawSelectionCoef P) (fun s => !P.isValidTraitVal s)
          (rnd.realOutcomes.length + 1) rnd ∧
    doWhile (drawDominance P selCoef) (fun h => decide (h < 0)) fuel rnd
      = doWhile (drawDominance P selCoef) (fun h => decide (h < 0))
          (rnd.realOutcomes.length + 1) rnd :=
  ⟨doWhile_fuel _ _ (drawSelectionCoef_shorter P) fuel _ rnd h (by omega),
   doWhile_fuel _ _ (drawDominance_shorter P selCoef) fuel _ rnd h (by omega)⟩

end GeneticFitnessTrait
